import Mathlib

/-!
Verification of the transaction-lifecycle tracker of
`src/src/solutions/creativedev.ts`.

The tracker is a single-threaded reactive state machine.  We embed its
mutable state (`pendingTxs`, `settledTxs`, `doneTxs`, `newTxs`,
`blockParents`) as lists and association lists, its three event handlers
(`onNewBlock`, `onNewTx`, `onFinalized`) as pure functions from state to
state, and its observable behaviour (oracle calls `getBody` / `isTxValid` /
`isTxSuccessful`, the callbacks `onTxSettled` / `onTxDone`, and the never
emitted `unpin`) as a trace of `Call` items.

The ancestry walk of `onFinalized` is a JavaScript `while` loop with no
cycle guard; it is embedded fuel-bounded (`walkList`), returning `none`
when it fails to reach a block with no recorded parent.  A terminating
walk never visits the same parent-map key twice, so the fuel
`blockParents.length + 2` used by `onFinalized` is exhaustive: `none`
means the source loop diverges.
-/

namespace TxTracker

/-- Association-list lookup, the embedding of `Map.get`. -/
def alookup : List (String × String) → String → Option String
  | [], _ => none
  | (k, v) :: rest, key => if k = key then some v else alookup rest key

/-- Association-list update, the embedding of `Map.set`: replace the
entry of an existing key, else append. -/
def setEntry : List (String × String) → String → String → List (String × String)
  | [], k, v => [(k, v)]
  | (k', v') :: rest, k, v =>
    if k' = k then (k, v) :: rest else (k', v') :: setEntry rest k v

/-- Association-list removal, the embedding of `Map.delete`. -/
def eraseKey : List (String × String) → String → List (String × String)
  | [], _ => []
  | (k', v') :: rest, k => if k' = k then rest else (k', v') :: eraseKey rest k

/-- The key set of an association list (`Map` keys). -/
def keysOf : List (String × String) → List String
  | [] => []
  | (k, _) :: rest => k :: keysOf rest

/-- Outcome reported by `onTxSettled` / `onTxDone`
(`{type: "invalid", blockHash}` or `{type: "valid", blockHash, successful}`). -/
inductive TxOutcome where
  | invalid (blockHash : String)
  | valid (blockHash : String) (successful : Bool)
deriving DecidableEq

/-- One observable action of the tracker: an oracle call or an output
callback.  `unpin` is part of the external API surface; the tracker
never emits it. -/
inductive Call where
  | getBody (blockHash : String)
  | isTxValid (blockHash txHash : String)
  | isTxSuccessful (blockHash txHash : String)
  | txSettled (txHash : String) (outcome : TxOutcome)
  | txDone (txHash : String) (outcome : TxOutcome)
  | unpin (blocks : List String)
deriving DecidableEq

/-- The chain oracle (`api.getBody`, `api.isTxValid`, `api.isTxSuccessful`),
a synchronous read-only function of its arguments. -/
structure API where
  getBody : String → List String
  isTxValid : String → String → Bool
  isTxSuccessful : String → String → Bool

/-- The tracker's mutable state:
`pendingTxs : Set<string>`, `settledTxs : Map<string, string>` (tx to the
block it settled in), `doneTxs : Set<string>`, `newTxs : string[]` (the
arrival queue), `blockParents : Map<string, string>`. -/
structure TrackerState where
  pendingTxs : List String
  settledTxs : List (String × String)
  doneTxs : List String
  newTxs : List String
  blockParents : List (String × String)
deriving DecidableEq

/-- The initial (empty) tracker state. -/
def initState : TrackerState := ⟨[], [], [], [], []⟩

/-- The three incoming event shapes. -/
inductive Event where
  | newBlock (blockHash parent : String)
  | newTransaction (value : String)
  | finalized (blockHash : String)
deriving DecidableEq

/-- The state update performed when a transaction settles: record the
settlement block, drop pending, and append to the arrival queue when the
transaction was not yet known. -/
def settleUpd (st : TrackerState) (blockHash txHash : String) : TrackerState :=
  { st with
    newTxs := if txHash ∈ st.pendingTxs then st.newTxs else st.newTxs ++ [txHash]
    settledTxs := setEntry st.settledTxs txHash blockHash
    pendingTxs := st.pendingTxs.erase txHash }

/-- Body of the `for (const txHash of txsInBlock)` loop of `onNewBlock`:
skip when already settled or done, else record settlement, keep the
arrival queue, and emit the oracle calls and the `onTxSettled` callback. -/
def settleOne (api : API) (blockHash : String) (st : TrackerState)
    (txHash : String) : TrackerState × List Call :=
  if txHash ∈ keysOf st.settledTxs ∨ txHash ∈ st.doneTxs then (st, [])
  else if api.isTxValid blockHash txHash then
    (settleUpd st blockHash txHash,
     [Call.isTxValid blockHash txHash,
      Call.isTxSuccessful blockHash txHash,
      Call.txSettled txHash
        (TxOutcome.valid blockHash (api.isTxSuccessful blockHash txHash))])
  else
    (settleUpd st blockHash txHash,
     [Call.isTxValid blockHash txHash,
      Call.txSettled txHash (TxOutcome.invalid blockHash)])

/-- Threads a per-transaction step through a fold, appending the step's
calls to the accumulated trace. -/
def accStep (g : TrackerState → String → TrackerState × List Call)
    (acc : TrackerState × List Call) (x : String) : TrackerState × List Call :=
  ((g acc.1 x).1, acc.2 ++ (g acc.1 x).2)

/-- The `onNewBlock` handler: record the parent link, fetch the body,
and settle each transaction of the body in order. -/
def onNewBlock (api : API) (st : TrackerState) (blockHash parent : String) :
    TrackerState × List Call :=
  let st0 : TrackerState :=
    { st with blockParents := setEntry st.blockParents blockHash parent }
  (api.getBody blockHash).foldl (accStep (settleOne api blockHash))
    (st0, [Call.getBody blockHash])

/-- The `onNewTx` handler: a transaction not yet pending, settled or done
becomes pending and joins the arrival queue; otherwise nothing happens. -/
def onNewTx (st : TrackerState) (transaction : String) :
    TrackerState × List Call :=
  if transaction ∈ st.pendingTxs ∨ transaction ∈ keysOf st.settledTxs ∨
      transaction ∈ st.doneTxs then
    (st, [])
  else
    ({ st with
        pendingTxs := st.pendingTxs ++ [transaction]
        newTxs := st.newTxs ++ [transaction] }, [])

/-- One parent-link step of the ancestry walk:
`blockParents.get(current) || ''`. -/
def parentStep (parents : List (String × String)) (current : String) : String :=
  (alookup parents current).getD ""

/-- Fuel-bounded embedding of the `while (current)` ancestry walk of
`onFinalized`.  Returns the list of visited blocks, or `none` when the
fuel runs out, i.e. when the source loop would still be running. -/
def walkList (parents : List (String × String)) : Nat → String → Option (List String)
  | 0, current => if current = "" then some [] else none
  | fuel + 1, current =>
    if current = "" then some []
    else
      match walkList parents fuel (parentStep parents current) with
      | none => none
      | some l => some (current :: l)

/-- The ancestry walk with the exhaustive fuel `parents.length + 2`:
a terminating walk visits each distinct parent-map key at most once
(revisiting a key makes the iteration periodic and the source loop
diverges), so `none` means genuine divergence of the source loop. -/
def walkAncestors (parents : List (String × String)) (start : String) :
    Option (List String) :=
  walkList parents (parents.length + 2) start

/-- The transactions becoming done: currently settled transactions whose
settlement block lies in the finalized ancestor set. -/
def txsToDoneOf (st : TrackerState) (finalizedBlocks : List String) : List String :=
  (st.settledTxs.filter (fun p => p.2 ∈ finalizedBlocks)).map Prod.fst

/-- The state update performed when a transaction becomes done: remove it
from the settled map and add it to the done set. -/
def doneUpd (st : TrackerState) (txHash : String) : TrackerState :=
  { st with
    settledTxs := eraseKey st.settledTxs txHash
    doneTxs := if txHash ∈ st.doneTxs then st.doneTxs else st.doneTxs ++ [txHash] }

/-- Body of the `for (const txHash of newTxs)` loop of `onFinalized`:
for a transaction becoming done, look up its settlement block
(`settledTxs.get(txHash) || ''`), query the oracle, emit `onTxDone`, and
move it from settled to done. -/
def doneOne (api : API) (txsToDone : List String) (st : TrackerState)
    (txHash : String) : TrackerState × List Call :=
  if txHash ∈ txsToDone then
    if api.isTxValid ((alookup st.settledTxs txHash).getD "") txHash then
      (doneUpd st txHash,
       [Call.isTxValid ((alookup st.settledTxs txHash).getD "") txHash,
        Call.isTxSuccessful ((alookup st.settledTxs txHash).getD "") txHash,
        Call.txDone txHash
          (TxOutcome.valid ((alookup st.settledTxs txHash).getD "")
            (api.isTxSuccessful ((alookup st.settledTxs txHash).getD "") txHash))])
    else
      (doneUpd st txHash,
       [Call.isTxValid ((alookup st.settledTxs txHash).getD "") txHash,
        Call.txDone txHash (TxOutcome.invalid ((alookup st.settledTxs txHash).getD ""))])
  else (st, [])

/-- The `onFinalized` handler: walk the ancestry chain, compute the set of
transactions becoming done, and replay the arrival queue emitting
`onTxDone` for each of them.  `none` embeds divergence of the unguarded
ancestry walk. -/
def onFinalized (api : API) (st : TrackerState) (blockHash : String) :
    Option (TrackerState × List Call) :=
  match walkAncestors st.blockParents blockHash with
  | none => none
  | some finalizedBlocks =>
    let td := txsToDoneOf st finalizedBlocks
    some (st.newTxs.foldl (accStep (doneOne api td)) (st, []))

/-- The event dispatcher returned by `creativedev`. -/
def processEvent (api : API) (st : TrackerState) :
    Event → Option (TrackerState × List Call)
  | Event.newBlock blockHash parent => some (onNewBlock api st blockHash parent)
  | Event.newTransaction value => some (onNewTx st value)
  | Event.finalized blockHash => onFinalized api st blockHash

/-- Process a list of events from a given state, accumulating the trace. -/
def runAux (api : API) (st : TrackerState) (trace : List Call) :
    List Event → Option (TrackerState × List Call)
  | [] => some (st, trace)
  | e :: rest =>
    match processEvent api st e with
    | none => none
    | some (st', tr) => runAux api st' (trace ++ tr) rest

/-- Process a list of events from the initial state. -/
def run (api : API) (events : List Event) : Option (TrackerState × List Call) :=
  runAux api initState [] events

/-- Does this call settle the given transaction? -/
def isSettledCall (tx : String) : Call → Bool
  | Call.txSettled t _ => t == tx
  | _ => false

/-- Does this call complete the given transaction? -/
def isDoneCall (tx : String) : Call → Bool
  | Call.txDone t _ => t == tx
  | _ => false

/-- Number of `onTxSettled` calls for a transaction in a trace. -/
def countSettled (trace : List Call) (tx : String) : Nat :=
  trace.countP (isSettledCall tx)

/-- Number of `onTxDone` calls for a transaction in a trace. -/
def countDone (trace : List Call) (tx : String) : Nat :=
  trace.countP (isDoneCall tx)

/-- Number of `isTxValid(blockHash, txHash)` oracle calls in a trace. -/
def countValidCalls (trace : List Call) (blockHash txHash : String) : Nat :=
  trace.countP (fun c => c == Call.isTxValid blockHash txHash)

/-- Is this call an `unpin`? -/
def isUnpinCall : Call → Bool
  | Call.unpin _ => true
  | _ => false

/-- The transaction identifiers of the `onTxDone` calls of a trace, in
emission order. -/
def doneTxsOfTrace (trace : List Call) : List String :=
  trace.filterMap (fun c =>
    match c with
    | Call.txDone t _ => some t
    | _ => none)

/-- Every `onTxDone` call in the trace is preceded by an `onTxSettled`
call for the same transaction. -/
def DoneAfterSettled (trace : List Call) : Prop :=
  ∀ tx l₁ o l₂, trace = l₁ ++ Call.txDone tx o :: l₂ →
    ∃ o', Call.txSettled tx o' ∈ l₁

/-! ### Association-list lemmas -/

theorem alookup_isSome_iff (m : List (String × String)) (k : String) :
    (alookup m k).isSome ↔ k ∈ keysOf m := by
  induction m with
  | nil => simp [alookup, keysOf]
  | cons p rest ih =>
    obtain ⟨k', v'⟩ := p
    by_cases h : k' = k <;> simp [alookup, keysOf, h, ih]
    exact fun he => absurd he.symm h

theorem alookup_eq_none_iff (m : List (String × String)) (k : String) :
    alookup m k = none ↔ k ∉ keysOf m := by
  rw [← alookup_isSome_iff]
  cases alookup m k <;> simp

theorem alookup_some_mem {m : List (String × String)} {k v : String}
    (h : alookup m k = some v) : (k, v) ∈ m := by
  induction m with
  | nil => simp [alookup] at h
  | cons p rest ih =>
    obtain ⟨k', v'⟩ := p
    by_cases hk : k' = k
    · simp [alookup, hk] at h
      simp [hk, h]
    · simp [alookup, hk] at h
      exact List.mem_cons_of_mem _ (ih h)

theorem mem_keysOf_of_mem {m : List (String × String)} {k v : String}
    (h : (k, v) ∈ m) : k ∈ keysOf m := by
  induction m with
  | nil => simp at h
  | cons p rest ih =>
    obtain ⟨k', v'⟩ := p
    rcases List.mem_cons.mp h with h1 | h1
    · simp [keysOf, (Prod.mk.injEq .. ▸ h1).1.symm]
    · simp [keysOf, ih h1]

theorem mem_alookup {m : List (String × String)} {k v : String}
    (hn : (keysOf m).Nodup) (h : (k, v) ∈ m) : alookup m k = some v := by
  induction m with
  | nil => simp at h
  | cons p rest ih =>
    obtain ⟨k', v'⟩ := p
    simp [keysOf] at hn
    rcases List.mem_cons.mp h with h1 | h1
    · obtain ⟨h1, h2⟩ := Prod.mk.injEq .. ▸ h1
      simp [alookup, h1, h2]
    · have hk : k' ≠ k := fun he => hn.1 (he ▸ mem_keysOf_of_mem h1)
      simp [alookup, hk]
      exact ih hn.2 h1

theorem alookup_setEntry_self (m : List (String × String)) (k v : String) :
    alookup (setEntry m k v) k = some v := by
  induction m with
  | nil => simp [setEntry, alookup]
  | cons p rest ih =>
    obtain ⟨k', v'⟩ := p
    by_cases h : k' = k <;> simp [setEntry, alookup, h, ih]

theorem alookup_setEntry_ne {k' k : String} (m : List (String × String))
    (v : String) (h : k' ≠ k) : alookup (setEntry m k v) k' = alookup m k' := by
  have hkk : k ≠ k' := fun he => h he.symm
  induction m with
  | nil => simp [setEntry, alookup, hkk]
  | cons p rest ih =>
    obtain ⟨ka, va⟩ := p
    by_cases hk : ka = k
    · simp [setEntry, hk, alookup, hkk]
    · by_cases hk2 : ka = k' <;> simp [setEntry, hk, alookup, hk2, ih, h]

theorem mem_keysOf_setEntry {a k : String} (m : List (String × String))
    (v : String) : a ∈ keysOf (setEntry m k v) ↔ a ∈ keysOf m ∨ a = k := by
  induction m with
  | nil => simp [setEntry, keysOf]
  | cons p rest ih =>
    obtain ⟨k', v'⟩ := p
    by_cases h : k' = k <;> simp [setEntry, keysOf, h, ih] <;> tauto

theorem keysOf_setEntry_of_mem {k : String} {m : List (String × String)}
    (v : String) (h : k ∈ keysOf m) : keysOf (setEntry m k v) = keysOf m := by
  induction m with
  | nil => simp [keysOf] at h
  | cons p rest ih =>
    obtain ⟨k', v'⟩ := p
    by_cases hk : k' = k
    · simp [setEntry, keysOf, hk]
    · simp [keysOf, hk] at h
      rcases h with h | h
      · exact absurd h.symm hk
      · simp [setEntry, keysOf, hk, ih h]

theorem keysOf_setEntry_of_not_mem {k : String} {m : List (String × String)}
    (v : String) (h : k ∉ keysOf m) : keysOf (setEntry m k v) = keysOf m ++ [k] := by
  induction m with
  | nil => simp [setEntry, keysOf]
  | cons p rest ih =>
    obtain ⟨k', v'⟩ := p
    simp [keysOf] at h
    push_neg at h
    have hne : k' ≠ k := fun he => h.1 he.symm
    simp [setEntry, keysOf, hne, ih h.2]

theorem nodup_keysOf_setEntry {m : List (String × String)} (k v : String)
    (h : (keysOf m).Nodup) : (keysOf (setEntry m k v)).Nodup := by
  by_cases hk : k ∈ keysOf m
  · rwa [keysOf_setEntry_of_mem v hk]
  · rw [keysOf_setEntry_of_not_mem v hk]
    rw [List.nodup_append]
    refine ⟨h, List.nodup_singleton k, ?_⟩
    intro a ha hb
    simp at hb
    exact hk (hb ▸ ha)

theorem mem_setEntry_of_ne {a b k : String} {m : List (String × String)}
    (v : String) (h : (a, b) ∈ m) (hne : a ≠ k) : (a, b) ∈ setEntry m k v := by
  induction m with
  | nil => simp at h
  | cons p rest ih =>
    obtain ⟨k', v'⟩ := p
    by_cases hk : k' = k
    · simp [setEntry, hk]
      rcases List.mem_cons.mp h with h1 | h1
      · exact absurd (congrArg Prod.fst h1) (by simpa [hk] using hne)
      · exact Or.inr h1
    · simp [setEntry, hk]
      rcases List.mem_cons.mp h with h1 | h1
      · exact Or.inl (by simp at h1; tauto)
      · exact Or.inr (ih h1)

theorem mem_setEntry_cases {p : String × String} {m : List (String × String)}
    {k v : String} (h : p ∈ setEntry m k v) : p ∈ m ∨ p = (k, v) := by
  obtain ⟨a, b⟩ := p
  induction m with
  | nil =>
    simp [setEntry] at h
    exact Or.inr (by simp [h.1, h.2])
  | cons q rest ih =>
    obtain ⟨k', v'⟩ := q
    by_cases hk : k' = k
    · simp [setEntry, hk] at h
      rcases h with h | h
      · exact Or.inr (by simp [h.1, h.2])
      · exact Or.inl (List.mem_cons_of_mem _ h)
    · simp [setEntry, hk] at h
      rcases h with h | h
      · exact Or.inl (by simp [h.1, h.2])
      · rcases ih h with h1 | h1
        · exact Or.inl (List.mem_cons_of_mem _ h1)
        · exact Or.inr h1

theorem alookup_eraseKey_ne {k' k : String} (m : List (String × String))
    (h : k' ≠ k) : alookup (eraseKey m k) k' = alookup m k' := by
  have hkk : k ≠ k' := fun he => h he.symm
  induction m with
  | nil => simp [eraseKey]
  | cons p rest ih =>
    obtain ⟨ka, va⟩ := p
    by_cases hk : ka = k
    · simp [eraseKey, hk, alookup, hkk]
    · by_cases hk2 : ka = k' <;> simp [eraseKey, hk, alookup, hk2, ih, h]

theorem mem_of_mem_eraseKey {p : String × String} {m : List (String × String)}
    {k : String} (h : p ∈ eraseKey m k) : p ∈ m := by
  obtain ⟨a, b⟩ := p
  induction m with
  | nil => simp [eraseKey] at h
  | cons q rest ih =>
    obtain ⟨k', v'⟩ := q
    by_cases hk : k' = k
    · simp [eraseKey, hk] at h
      exact List.mem_cons_of_mem _ h
    · simp [eraseKey, hk] at h
      rcases h with h | h
      · simp [h.1, h.2]
      · exact List.mem_cons_of_mem _ (ih h)

theorem mem_eraseKey_of_ne {a b k : String} {m : List (String × String)}
    (h : (a, b) ∈ m) (hne : a ≠ k) : (a, b) ∈ eraseKey m k := by
  induction m with
  | nil => simp at h
  | cons q rest ih =>
    obtain ⟨k', v'⟩ := q
    by_cases hk : k' = k
    · simp [eraseKey, hk]
      rcases List.mem_cons.mp h with h1 | h1
      · exact absurd (congrArg Prod.fst h1) (by simpa [hk] using hne)
      · exact h1
    · simp [eraseKey, hk]
      rcases List.mem_cons.mp h with h1 | h1
      · exact Or.inl (by simp at h1; tauto)
      · exact Or.inr (ih h1)

theorem keysOf_eraseKey_subset {m : List (String × String)} {k a : String}
    (h : a ∈ keysOf (eraseKey m k)) : a ∈ keysOf m := by
  induction m with
  | nil => simp [eraseKey, keysOf] at h
  | cons q rest ih =>
    obtain ⟨k', v'⟩ := q
    by_cases hk : k' = k
    · simp [eraseKey, hk] at h
      simp [keysOf, h]
    · simp [eraseKey, keysOf, hk] at h ⊢
      rcases h with h | h
      · exact Or.inl h
      · exact Or.inr (ih h)

theorem nodup_keysOf_eraseKey {m : List (String × String)} (k : String)
    (h : (keysOf m).Nodup) : (keysOf (eraseKey m k)).Nodup := by
  induction m with
  | nil => simp [eraseKey, keysOf]
  | cons p rest ih =>
    obtain ⟨k', v'⟩ := p
    simp [keysOf] at h
    by_cases hk : k' = k
    · simpa [eraseKey, hk] using h.2
    · simp [eraseKey, hk, keysOf]
      exact ⟨fun hmem => h.1 (keysOf_eraseKey_subset hmem), ih h.2⟩

theorem mem_keysOf_eraseKey_iff {m : List (String × String)} {k a : String}
    (hn : (keysOf m).Nodup) : a ∈ keysOf (eraseKey m k) ↔ a ∈ keysOf m ∧ a ≠ k := by
  induction m with
  | nil => simp [eraseKey, keysOf]
  | cons p rest ih =>
    obtain ⟨k', v'⟩ := p
    simp [keysOf] at hn
    by_cases hk : k' = k
    · subst hk
      simp [eraseKey, keysOf]
      constructor
      · intro h
        exact ⟨Or.inr h, fun he => hn.1 (he ▸ h)⟩
      · rintro ⟨h | h, hne⟩
        · exact absurd h hne
        · exact h
    · simp [eraseKey, keysOf, hk, ih hn.2]
      constructor
      · rintro (h | h)
        · subst h
          exact ⟨Or.inl rfl, hk⟩
        · exact ⟨Or.inr h.1, h.2⟩
      · rintro ⟨h | h, hne⟩
        · exact Or.inl h
        · exact Or.inr ⟨h, hne⟩

/-! ### Trace lemmas -/

theorem isSettledCall_iff {tx : String} {c : Call} :
    isSettledCall tx c = true ↔ ∃ o, c = Call.txSettled tx o := by
  cases c <;> simp [isSettledCall]

theorem isDoneCall_iff {tx : String} {c : Call} :
    isDoneCall tx c = true ↔ ∃ o, c = Call.txDone tx o := by
  cases c <;> simp [isDoneCall]

theorem countSettled_append (tr Δ : List Call) (tx : String) :
    countSettled (tr ++ Δ) tx = countSettled tr tx + countSettled Δ tx :=
  List.countP_append _ _ _

theorem countDone_append (tr Δ : List Call) (tx : String) :
    countDone (tr ++ Δ) tx = countDone tr tx + countDone Δ tx :=
  List.countP_append _ _ _

theorem countValidCalls_append (tr Δ : List Call) (b tx : String) :
    countValidCalls (tr ++ Δ) b tx = countValidCalls tr b tx + countValidCalls Δ b tx :=
  List.countP_append _ _ _

theorem exists_settled_of_countSettled_ne {tr : List Call} {tx : String}
    (h : countSettled tr tx ≠ 0) : ∃ o, Call.txSettled tx o ∈ tr := by
  obtain ⟨c, hc, hp⟩ := List.countP_pos_iff.mp (Nat.pos_of_ne_zero h)
  obtain ⟨o, rfl⟩ := isSettledCall_iff.mp hp
  exact ⟨o, hc⟩

theorem doneAfterSettled_append {tr Δ : List Call} (h : DoneAfterSettled tr)
    (hΔ : ∀ tx o, Call.txDone tx o ∈ Δ → ∃ o', Call.txSettled tx o' ∈ tr) :
    DoneAfterSettled (tr ++ Δ) := by
  intro tx l₁ o l₂ he
  rcases List.append_eq_append_iff.mp he with ⟨a', ha1, ha2⟩ | ⟨c', hc1, hc2⟩
  · obtain ⟨o', ho'⟩ := hΔ tx o (by rw [ha2]; exact List.mem_append_right _ (List.mem_cons_self _ _))
    exact ⟨o', ha1 ▸ List.mem_append_left _ ho'⟩
  · cases c' with
    | nil =>
      simp at hc1 hc2
      obtain ⟨o', ho'⟩ := hΔ tx o (by rw [← hc2]; exact List.mem_cons_self _ _)
      exact ⟨o', hc1 ▸ ho'⟩
    | cons x c'' =>
      simp at hc2
      obtain ⟨hx, hrest⟩ := hc2
      exact h tx l₁ o c'' (by rw [hc1, hx])

theorem doneTxsOfTrace_append (tr Δ : List Call) :
    doneTxsOfTrace (tr ++ Δ) = doneTxsOfTrace tr ++ doneTxsOfTrace Δ :=
  List.filterMap_append _ _ _

/-! ### Generic fold lemmas -/

theorem foldl_accStep_decomp (g : TrackerState → String → TrackerState × List Call) :
    ∀ (l : List String) (st : TrackerState) (calls : List Call),
      l.foldl (accStep g) (st, calls) =
        ((l.foldl (accStep g) (st, [])).1, calls ++ (l.foldl (accStep g) (st, [])).2) := by
  intro l
  induction l with
  | nil => intro st calls; simp
  | cons x l ih =>
    intro st calls
    simp only [List.foldl, accStep, List.nil_append]
    rw [ih (g st x).1 (calls ++ (g st x).2), ih (g st x).1 (g st x).2]
    simp

theorem foldl_accStep_fst (g : TrackerState → String → TrackerState × List Call)
    (l : List String) (st : TrackerState) (calls : List Call) :
    (l.foldl (accStep g) (st, calls)).1 = (l.foldl (accStep g) (st, [])).1 := by
  rw [foldl_accStep_decomp]

theorem foldl_accStep_snd (g : TrackerState → String → TrackerState × List Call)
    (l : List String) (st : TrackerState) (calls : List Call) :
    (l.foldl (accStep g) (st, calls)).2 = calls ++ (l.foldl (accStep g) (st, [])).2 := by
  rw [foldl_accStep_decomp]

theorem foldl_accStep_cons (g : TrackerState → String → TrackerState × List Call)
    (x : String) (l : List String) (st : TrackerState) (calls : List Call) :
    (x :: l).foldl (accStep g) (st, calls) =
      l.foldl (accStep g) ((g st x).1, calls ++ (g st x).2) := rfl

theorem foldl_accStep_state {g : TrackerState → String → TrackerState × List Call}
    {Q : TrackerState → Prop} (hg : ∀ st x, Q st → Q (g st x).1) :
    ∀ (l : List String) (st : TrackerState) (calls : List Call),
      Q st → Q (l.foldl (accStep g) (st, calls)).1 := by
  intro l
  induction l with
  | nil => intro st calls h; exact h
  | cons x l ih =>
    intro st calls h
    rw [foldl_accStep_cons]
    exact ih _ _ (hg st x h)

/-! ### Ancestry-walk lemmas -/

/-- Iterated parent lookup: the block reached after `k` parent-link steps. -/
def parentIterN (parents : List (String × String)) : Nat → String → String
  | 0, s => s
  | k + 1, s => parentIterN parents k (parentStep parents s)

theorem walkList_sound (parents : List (String × String)) :
    ∀ (f : Nat) (s : String) (l : List String),
      walkList parents f s = some l →
      List.Chain' (fun x y => parentStep parents x = y) l ∧
      (∀ x ∈ l, x ≠ "") ∧ (l = [] ↔ s = "") ∧
      (∀ x, l.head? = some x → x = s) ∧
      (∀ z, l.getLast? = some z → parentStep parents z = "") := by
  intro f
  induction f with
  | zero =>
    intro s l h
    by_cases hs : s = "" <;> simp [walkList, hs] at h
    subst h
    simp [hs]
  | succ f ih =>
    intro s l h
    by_cases hs : s = ""
    · simp [walkList, hs] at h
      subst h
      simp [hs]
    · simp [walkList, hs] at h
      cases hw : walkList parents f (parentStep parents s) with
      | none => rw [hw] at h; simp at h
      | some l' =>
        rw [hw] at h
        simp at h
        obtain ⟨hch, hne, hemp, hhd, hlast⟩ := ih (parentStep parents s) l' hw
        subst h
        refine ⟨?_, ?_, by simp [hs], by simp, ?_⟩
        · rw [List.chain'_cons']
          exact ⟨fun y hy => (hhd y hy).symm, hch⟩
        · intro x hx
          rcases List.mem_cons.mp hx with hx | hx
          · exact hx ▸ hs
          · exact hne x hx
        · intro z hz
          cases l' with
          | nil =>
            simp at hz
            subst hz
            exact hemp.mp rfl
          | cons a l'' =>
            rw [List.getLast?_cons_cons] at hz
            exact hlast z hz

theorem walkList_mem_iter (parents : List (String × String)) :
    ∀ (k f : Nat) (s : String) (l : List String),
      walkList parents f s = some l →
      (∀ j, j ≤ k → parentIterN parents j s ≠ "") →
      parentIterN parents k s ∈ l := by
  intro k
  induction k with
  | zero =>
    intro f s l h hj
    have hs : s ≠ "" := by simpa [parentIterN] using hj 0 (le_refl 0)
    cases f with
    | zero => simp [walkList, hs] at h
    | succ f =>
      simp [walkList, hs] at h
      cases hw : walkList parents f (parentStep parents s) with
      | none => rw [hw] at h; simp at h
      | some l' =>
        rw [hw] at h
        simp at h
        simp [parentIterN, ← h]
  | succ k ih =>
    intro f s l h hj
    have hs : s ≠ "" := by simpa [parentIterN] using hj 0 (Nat.zero_le _)
    cases f with
    | zero => simp [walkList, hs] at h
    | succ f =>
      simp [walkList, hs] at h
      cases hw : walkList parents f (parentStep parents s) with
      | none => rw [hw] at h; simp at h
      | some l' =>
        rw [hw] at h
        simp at h
        have hmem : parentIterN parents k (parentStep parents s) ∈ l' :=
          ih f (parentStep parents s) l' hw
            (fun j hjk => by simpa [parentIterN] using hj (j + 1) (by omega))
        rw [show parentIterN parents (k + 1) s =
              parentIterN parents k (parentStep parents s) from rfl, ← h]
        exact List.mem_cons_of_mem _ hmem

theorem walkList_self_loop : ∀ f : Nat, walkList [("a", "a")] f "a" = none := by
  intro f
  induction f with
  | zero => simp [walkList]
  | succ f ih => simp [walkList, parentStep, alookup, ih]


/-! ### Characterization of the per-transaction steps -/

theorem settleOne_skip {api : API} {bh st tx} (h : tx ∈ keysOf st.settledTxs ∨ tx ∈ st.doneTxs) :
    settleOne api bh st tx = (st, []) := by
  unfold settleOne
  rw [if_pos h]

theorem settleOne_fst {api : API} {bh st tx}
    (h : ¬(tx ∈ keysOf st.settledTxs ∨ tx ∈ st.doneTxs)) :
    (settleOne api bh st tx).1 = settleUpd st bh tx := by
  unfold settleOne
  rw [if_neg h]
  split_ifs <;> rfl

theorem settleOne_snd {api : API} {bh st tx}
    (h : ¬(tx ∈ keysOf st.settledTxs ∨ tx ∈ st.doneTxs)) :
    (settleOne api bh st tx).2 =
      if api.isTxValid bh tx then
        [Call.isTxValid bh tx, Call.isTxSuccessful bh tx,
         Call.txSettled tx (TxOutcome.valid bh (api.isTxSuccessful bh tx))]
      else
        [Call.isTxValid bh tx, Call.txSettled tx (TxOutcome.invalid bh)] := by
  unfold settleOne
  rw [if_neg h]
  split_ifs <;> rfl

theorem settleOne_blockParents (api : API) (bh : String) (st : TrackerState) (tx : String) :
    (settleOne api bh st tx).1.blockParents = st.blockParents := by
  by_cases h : tx ∈ keysOf st.settledTxs ∨ tx ∈ st.doneTxs
  · rw [settleOne_skip h]
  · rw [settleOne_fst h]
    rfl

theorem doneOne_skip {api : API} {td st tx} (h : tx ∉ td) :
    doneOne api td st tx = (st, []) := by
  unfold doneOne
  rw [if_neg h]

theorem doneOne_fst {api : API} {td st tx} (h : tx ∈ td) :
    (doneOne api td st tx).1 = doneUpd st tx := by
  unfold doneOne
  rw [if_pos h]
  split_ifs <;> rfl

theorem doneOne_snd {api : API} {td st tx} (h : tx ∈ td) :
    (doneOne api td st tx).2 =
      if api.isTxValid ((alookup st.settledTxs tx).getD "") tx then
        [Call.isTxValid ((alookup st.settledTxs tx).getD "") tx,
         Call.isTxSuccessful ((alookup st.settledTxs tx).getD "") tx,
         Call.txDone tx
           (TxOutcome.valid ((alookup st.settledTxs tx).getD "")
             (api.isTxSuccessful ((alookup st.settledTxs tx).getD "") tx))]
      else
        [Call.isTxValid ((alookup st.settledTxs tx).getD "") tx,
         Call.txDone tx (TxOutcome.invalid ((alookup st.settledTxs tx).getD ""))] := by
  unfold doneOne
  rw [if_pos h]
  split_ifs <;> rfl

theorem doneOne_blockParents (api : API) (td : List String) (st : TrackerState) (tx : String) :
    (doneOne api td st tx).1.blockParents = st.blockParents := by
  by_cases h : tx ∈ td
  · rw [doneOne_fst h]
    rfl
  · rw [doneOne_skip h]

/-! ### Call counts of the per-transaction steps -/

theorem countSettled_settleOne {api : API} {bh st tx} (t : String)
    (h : ¬(tx ∈ keysOf st.settledTxs ∨ tx ∈ st.doneTxs)) :
    countSettled (settleOne api bh st tx).2 t = if t = tx then 1 else 0 := by
  rw [settleOne_snd h]
  by_cases ht : t = tx
  · subst ht
    by_cases hv : api.isTxValid bh t = true <;>
      simp [hv, countSettled, List.countP_cons, isSettledCall]
  · split_ifs <;> simp [countSettled, List.countP_cons, isSettledCall, ht, Ne.symm ht]

theorem countDone_settleOne {api : API} {bh st tx} (t : String) :
    countDone (settleOne api bh st tx).2 t = 0 := by
  by_cases h : tx ∈ keysOf st.settledTxs ∨ tx ∈ st.doneTxs
  · rw [settleOne_skip h]
    rfl
  · rw [settleOne_snd h]
    split_ifs <;> simp [countDone, List.countP_cons, isDoneCall]

theorem txDone_not_mem_settleOne {api : API} {bh : String} {st : TrackerState} {tx t : String} {o : TxOutcome} :
    Call.txDone t o ∉ (settleOne api bh st tx).2 := by
  by_cases h : tx ∈ keysOf st.settledTxs ∨ tx ∈ st.doneTxs
  · rw [settleOne_skip h]
    simp
  · rw [settleOne_snd h]
    split_ifs <;> simp

theorem txSettled_not_mem_doneOne {api : API} {td : List String} {st : TrackerState} {tx t : String} {o : TxOutcome} :
    Call.txSettled t o ∉ (doneOne api td st tx).2 := by
  by_cases h : tx ∈ td
  · rw [doneOne_snd h]
    split_ifs <;> simp
  · rw [doneOne_skip h]
    simp

theorem countSettled_doneOne {api : API} {td st tx} (t : String) :
    countSettled (doneOne api td st tx).2 t = 0 := by
  by_cases h : tx ∈ td
  · rw [doneOne_snd h]
    split_ifs <;> simp [countSettled, List.countP_cons, isSettledCall]
  · rw [doneOne_skip h]
    rfl

theorem countDone_doneOne {api : API} {td st tx} (t : String) (h : tx ∈ td) :
    countDone (doneOne api td st tx).2 t = if t = tx then 1 else 0 := by
  rw [doneOne_snd h]
  by_cases ht : t = tx
  · subst ht
    by_cases hv : api.isTxValid ((alookup st.settledTxs t).getD "") t = true <;>
      simp [hv, countDone, List.countP_cons, isDoneCall]
  · split_ifs <;> simp [countDone, List.countP_cons, isDoneCall, ht, Ne.symm ht]

theorem txDone_mem_doneOne {api : API} {td : List String} {st : TrackerState} {tx t : String} {o : TxOutcome}
    (hmem : Call.txDone t o ∈ (doneOne api td st tx).2) : t = tx := by
  by_cases h : tx ∈ td
  · rw [doneOne_snd h] at hmem
    split_ifs at hmem <;> simp at hmem <;> tauto
  · rw [doneOne_skip h] at hmem
    simp at hmem

theorem txSettled_mem_settleOne {api : API} {bh : String} {st : TrackerState} {tx t : String} {o : TxOutcome}
    (hmem : Call.txSettled t o ∈ (settleOne api bh st tx).2) : t = tx := by
  by_cases h : tx ∈ keysOf st.settledTxs ∨ tx ∈ st.doneTxs
  · rw [settleOne_skip h] at hmem
    simp at hmem
  · rw [settleOne_snd h] at hmem
    split_ifs at hmem <;> simp at hmem <;> tauto

theorem mem_txsToDoneOf {st : TrackerState} {fb : List String} {t : String} :
    t ∈ txsToDoneOf st fb ↔ ∃ b, (t, b) ∈ st.settledTxs ∧ b ∈ fb := by
  simp only [txsToDoneOf, List.mem_map, List.mem_filter]
  constructor
  · rintro ⟨⟨a, b⟩, ⟨hm, hf⟩, rfl⟩
    exact ⟨b, hm, by simpa using hf⟩
  · rintro ⟨b, hm, hf⟩
    exact ⟨(t, b), ⟨hm, by simpa using hf⟩, rfl⟩


/-! ### The reachable-state invariant -/

/-- State-level invariant of the tracker: all collections are duplicate
free, the three lifecycle collections are pairwise disjoint, the arrival
queue contains exactly the known transactions, and every recorded
settlement block was seen via `NewBlock`. -/
structure StateOk (st : TrackerState) : Prop where
  pN : st.pendingTxs.Nodup
  sN : (keysOf st.settledTxs).Nodup
  dN : st.doneTxs.Nodup
  nN : st.newTxs.Nodup
  bN : (keysOf st.blockParents).Nodup
  disjPS : ∀ tx, tx ∈ st.pendingTxs → tx ∉ keysOf st.settledTxs
  disjPD : ∀ tx, tx ∈ st.pendingTxs → tx ∉ st.doneTxs
  disjSD : ∀ tx, tx ∈ keysOf st.settledTxs → tx ∉ st.doneTxs
  newIff : ∀ tx, tx ∈ st.newTxs ↔
    (tx ∈ st.pendingTxs ∨ tx ∈ keysOf st.settledTxs ∨ tx ∈ st.doneTxs)
  blocksSeen : ∀ p ∈ st.settledTxs, p.2 ∈ keysOf st.blockParents

/-- Invariant tying a reachable state to the trace that produced it:
the trace holds exactly one `onTxSettled` for each settled-or-done
transaction, exactly one `onTxDone` for each done transaction, and every
`onTxDone` is preceded by the `onTxSettled` of the same transaction. -/
structure Inv (st : TrackerState) (tr : List Call) : Prop where
  ok : StateOk st
  settledCount : ∀ tx, countSettled tr tx =
    (if tx ∈ keysOf st.settledTxs ∨ tx ∈ st.doneTxs then 1 else 0)
  doneCount : ∀ tx, countDone tr tx = (if tx ∈ st.doneTxs then 1 else 0)
  ordered : DoneAfterSettled tr

theorem Inv_init : Inv initState [] := by
  refine ⟨⟨?_, ?_, ?_, ?_, ?_, ?_, ?_, ?_, ?_, ?_⟩, ?_, ?_, ?_⟩ <;>
    try simp [initState, keysOf, countSettled, countDone]
  intro tx l₁ o l₂ he
  exact absurd he (by simp)

theorem settleOne_inv {api : API} {bh : String} {st : TrackerState}
    {tr : List Call} {tx : String} (h : Inv st tr)
    (hbp : bh ∈ keysOf st.blockParents) :
    Inv (settleOne api bh st tx).1 (tr ++ (settleOne api bh st tx).2) := by
  by_cases hc : tx ∈ keysOf st.settledTxs ∨ tx ∈ st.doneTxs
  · rw [settleOne_skip hc]
    simpa using h
  · have hs : tx ∉ keysOf st.settledTxs := fun hx => hc (Or.inl hx)
    have hd : tx ∉ st.doneTxs := fun hx => hc (Or.inr hx)
    rw [settleOne_fst hc]
    refine ⟨⟨?_, ?_, ?_, ?_, ?_, ?_, ?_, ?_, ?_, ?_⟩, ?_, ?_, ?_⟩
    · simpa [settleUpd] using h.ok.pN.erase tx
    · simpa [settleUpd] using nodup_keysOf_setEntry tx bh h.ok.sN
    · simpa [settleUpd] using h.ok.dN
    · simp only [settleUpd]
      by_cases hp : tx ∈ st.pendingTxs
      · simpa [hp] using h.ok.nN
      · have hnn : tx ∉ st.newTxs := fun hx => by
          rcases (h.ok.newIff tx).mp hx with h1 | h1 | h1
          · exact hp h1
          · exact hs h1
          · exact hd h1
        simp only [hp, if_false]
        rw [List.nodup_append]
        refine ⟨h.ok.nN, List.nodup_singleton tx, ?_⟩
        intro a ha hb
        simp at hb
        exact hnn (hb ▸ ha)
    · simpa [settleUpd] using h.ok.bN
    · intro t htp
      simp only [settleUpd] at htp ⊢
      have htne : t ≠ tx := (List.Nodup.mem_erase_iff h.ok.pN |>.mp htp).1
      have ht1 : t ∈ st.pendingTxs := List.mem_of_mem_erase htp
      rw [mem_keysOf_setEntry]
      rintro (hk | hk)
      · exact h.ok.disjPS t ht1 hk
      · exact htne hk
    · intro t htp
      simp only [settleUpd] at htp ⊢
      exact h.ok.disjPD t (List.mem_of_mem_erase htp)
    · intro t htk
      simp only [settleUpd] at htk ⊢
      rw [mem_keysOf_setEntry] at htk
      rcases htk with hk | hk
      · exact h.ok.disjSD t hk
      · exact hk ▸ hd
    · intro t
      simp only [settleUpd]
      by_cases hp : tx ∈ st.pendingTxs
      · simp only [hp, if_true]
        rw [h.ok.newIff t, mem_keysOf_setEntry, List.Nodup.mem_erase_iff h.ok.pN]
        by_cases ht : t = tx <;> simp [ht, hp]
      · simp only [hp, if_false]
        rw [List.mem_append, h.ok.newIff t, mem_keysOf_setEntry,
          List.Nodup.mem_erase_iff h.ok.pN]
        by_cases ht : t = tx <;> simp [ht, hp]
    · intro p hp
      simp only [settleUpd] at hp ⊢
      rcases mem_setEntry_cases hp with h1 | h1
      · exact h.ok.blocksSeen p h1
      · rw [h1]
        exact hbp
    · intro t
      rw [countSettled_append, h.settledCount t, countSettled_settleOne t hc]
      simp only [settleUpd, mem_keysOf_setEntry]
      by_cases ht : t = tx <;> simp [ht, hs, hd]
    · intro t
      rw [countDone_append, h.doneCount t, countDone_settleOne t]
      simp [settleUpd]
    · exact doneAfterSettled_append h.ordered
        (fun t o hmem => absurd hmem txDone_not_mem_settleOne)

theorem doneOne_inv {api : API} {td : List String} {st : TrackerState}
    {tr : List Call} {tx : String} (h : Inv st tr)
    (hmem : tx ∈ td → tx ∈ keysOf st.settledTxs) :
    Inv (doneOne api td st tx).1 (tr ++ (doneOne api td st tx).2) := by
  by_cases htd : tx ∈ td
  · have hk : tx ∈ keysOf st.settledTxs := hmem htd
    have hd : tx ∉ st.doneTxs := h.ok.disjSD tx hk
    have hpend : tx ∉ st.pendingTxs := fun hx => h.ok.disjPS tx hx hk
    rw [doneOne_fst htd]
    refine ⟨⟨?_, ?_, ?_, ?_, ?_, ?_, ?_, ?_, ?_, ?_⟩, ?_, ?_, ?_⟩
    · simpa [doneUpd] using h.ok.pN
    · simpa [doneUpd] using nodup_keysOf_eraseKey tx h.ok.sN
    · simp only [doneUpd, hd, if_false]
      rw [List.nodup_append]
      refine ⟨h.ok.dN, List.nodup_singleton tx, ?_⟩
      intro a ha hb
      simp at hb
      exact hd (hb ▸ ha)
    · simpa [doneUpd] using h.ok.nN
    · simpa [doneUpd] using h.ok.bN
    · intro t htp
      simp only [doneUpd] at htp ⊢
      intro hk'
      exact h.ok.disjPS t htp (keysOf_eraseKey_subset hk')
    · intro t htp
      simp only [doneUpd, hd, if_false] at htp ⊢
      rw [List.mem_append]
      rintro (h1 | h1)
      · exact h.ok.disjPD t htp h1
      · simp at h1
        exact h.ok.disjPS t htp (h1 ▸ hk)
    · intro t htk
      simp only [doneUpd, hd, if_false] at htk ⊢
      obtain ⟨htk1, htne⟩ := (mem_keysOf_eraseKey_iff h.ok.sN).mp htk
      rw [List.mem_append]
      rintro (h1 | h1)
      · exact h.ok.disjSD t htk1 h1
      · simp at h1
        exact htne h1
    · intro t
      simp only [doneUpd, hd, if_false]
      rw [List.mem_append, h.ok.newIff t, mem_keysOf_eraseKey_iff h.ok.sN]
      by_cases ht : t = tx <;> simp [ht, hk, hpend]
    · intro p hp
      simp only [doneUpd] at hp ⊢
      exact h.ok.blocksSeen p (mem_of_mem_eraseKey hp)
    · intro t
      rw [countSettled_append, h.settledCount t, countSettled_doneOne t]
      simp only [doneUpd, hd, if_false, Nat.add_zero,
        mem_keysOf_eraseKey_iff h.ok.sN, List.mem_append]
      by_cases ht : t = tx <;> simp [ht, hk, hd]
    · intro t
      rw [countDone_append, h.doneCount t, countDone_doneOne t htd]
      simp only [doneUpd, hd, if_false, List.mem_append]
      by_cases ht : t = tx <;> simp [ht, hd]
    · refine doneAfterSettled_append h.ordered (fun t o hmemc => ?_)
      have ht : t = tx := txDone_mem_doneOne hmemc
      subst ht
      refine exists_settled_of_countSettled_ne ?_
      rw [h.settledCount t]
      simp [hk]
  · rw [doneOne_skip htd]
    simpa using h

theorem onNewTx_known {st : TrackerState} {tx : String}
    (h : tx ∈ st.pendingTxs ∨ tx ∈ keysOf st.settledTxs ∨ tx ∈ st.doneTxs) :
    onNewTx st tx = (st, []) := by
  unfold onNewTx
  rw [if_pos h]

theorem onNewTx_new {st : TrackerState} {tx : String}
    (h : ¬(tx ∈ st.pendingTxs ∨ tx ∈ keysOf st.settledTxs ∨ tx ∈ st.doneTxs)) :
    onNewTx st tx =
      ({ st with
          pendingTxs := st.pendingTxs ++ [tx]
          newTxs := st.newTxs ++ [tx] }, []) := by
  unfold onNewTx
  rw [if_neg h]

theorem onNewTx_inv {st : TrackerState} {tr : List Call} {tx : String}
    (h : Inv st tr) : Inv (onNewTx st tx).1 (tr ++ (onNewTx st tx).2) := by
  by_cases hc : tx ∈ st.pendingTxs ∨ tx ∈ keysOf st.settledTxs ∨ tx ∈ st.doneTxs
  · rw [onNewTx_known hc]
    simpa using h
  · push_neg at hc
    obtain ⟨hp, hs, hd⟩ := hc
    have hnn : tx ∉ st.newTxs := fun hx => by
      rcases (h.ok.newIff tx).mp hx with h1 | h1 | h1
      · exact hp h1
      · exact hs h1
      · exact hd h1
    rw [onNewTx_new (by tauto)]
    refine ⟨⟨?_, ?_, ?_, ?_, ?_, ?_, ?_, ?_, ?_, ?_⟩, ?_, ?_, ?_⟩
    · rw [List.nodup_append]
      refine ⟨h.ok.pN, List.nodup_singleton tx, ?_⟩
      intro a ha hb
      simp at hb
      exact hp (hb ▸ ha)
    · exact h.ok.sN
    · exact h.ok.dN
    · rw [List.nodup_append]
      refine ⟨h.ok.nN, List.nodup_singleton tx, ?_⟩
      intro a ha hb
      simp at hb
      exact hnn (hb ▸ ha)
    · exact h.ok.bN
    · intro t htp
      rcases List.mem_append.mp htp with h1 | h1
      · exact h.ok.disjPS t h1
      · simp at h1
        exact h1 ▸ hs
    · intro t htp
      rcases List.mem_append.mp htp with h1 | h1
      · exact h.ok.disjPD t h1
      · simp at h1
        exact h1 ▸ hd
    · exact h.ok.disjSD
    · intro t
      rw [List.mem_append, List.mem_append, h.ok.newIff t]
      by_cases ht : t = tx <;> simp [ht]
    · exact h.ok.blocksSeen
    · intro t
      simpa using h.settledCount t
    · intro t
      simpa using h.doneCount t
    · simpa using h.ordered


/-! ### Handler-level invariant preservation -/

theorem onNewBlock_fst (api : API) (st : TrackerState) (bh par : String) :
    (onNewBlock api st bh par).1 =
      ((api.getBody bh).foldl (accStep (settleOne api bh))
        ({ st with blockParents := setEntry st.blockParents bh par }, [])).1 := by
  unfold onNewBlock
  rw [foldl_accStep_fst]

theorem onNewBlock_snd (api : API) (st : TrackerState) (bh par : String) :
    (onNewBlock api st bh par).2 =
      Call.getBody bh :: ((api.getBody bh).foldl (accStep (settleOne api bh))
        ({ st with blockParents := setEntry st.blockParents bh par }, [])).2 := by
  unfold onNewBlock
  rw [foldl_accStep_snd]
  rfl

theorem onFinalized_some {api : API} {st : TrackerState} {bh : String}
    {fb : List String} (hw : walkAncestors st.blockParents bh = some fb) :
    onFinalized api st bh =
      some (st.newTxs.foldl (accStep (doneOne api (txsToDoneOf st fb))) (st, [])) := by
  unfold onFinalized
  rw [hw]

theorem onFinalized_none {api : API} {st : TrackerState} {bh : String}
    (hw : walkAncestors st.blockParents bh = none) :
    onFinalized api st bh = none := by
  unfold onFinalized
  rw [hw]

theorem parentsUpd_inv {st : TrackerState} {tr : List Call} {bh par : String}
    (h : Inv st tr) :
    Inv { st with blockParents := setEntry st.blockParents bh par } tr := by
  refine ⟨⟨h.ok.pN, h.ok.sN, h.ok.dN, h.ok.nN, ?_, h.ok.disjPS, h.ok.disjPD,
    h.ok.disjSD, h.ok.newIff, ?_⟩, h.settledCount, h.doneCount, h.ordered⟩
  · exact nodup_keysOf_setEntry bh par h.ok.bN
  · intro p hp
    exact (mem_keysOf_setEntry _ _).mpr (Or.inl (h.ok.blocksSeen p hp))

theorem traceGetBody_inv (bh : String) {st : TrackerState} {tr : List Call}
    (h : Inv st tr) : Inv st (tr ++ [Call.getBody bh]) := by
  refine ⟨h.ok, ?_, ?_, ?_⟩
  · intro t
    rw [countSettled_append, h.settledCount t]
    simp [countSettled, List.countP_cons, isSettledCall]
  · intro t
    rw [countDone_append, h.doneCount t]
    simp [countDone, List.countP_cons, isDoneCall]
  · exact doneAfterSettled_append h.ordered (fun t o hm => by simp at hm)

theorem settleFold_inv (api : API) (bh : String) :
    ∀ (body : List String) (st : TrackerState) (tr : List Call),
      Inv st tr → bh ∈ keysOf st.blockParents →
      Inv ((body.foldl (accStep (settleOne api bh)) (st, [])).1)
          (tr ++ (body.foldl (accStep (settleOne api bh)) (st, [])).2) := by
  intro body
  induction body with
  | nil =>
    intro st tr h _
    simpa using h
  | cons x body ih =>
    intro st tr h hbp
    rw [foldl_accStep_cons]
    simp only [List.nil_append]
    rw [foldl_accStep_decomp]
    dsimp only
    rw [← List.append_assoc]
    exact ih (settleOne api bh st x).1 (tr ++ (settleOne api bh st x).2)
      (settleOne_inv h hbp) (by rw [settleOne_blockParents]; exact hbp)

theorem doneFold_inv (api : API) (td : List String) :
    ∀ (rest : List String) (st : TrackerState) (tr : List Call),
      Inv st tr → rest.Nodup →
      (∀ t, t ∈ rest → t ∈ td → t ∈ keysOf st.settledTxs) →
      Inv ((rest.foldl (accStep (doneOne api td)) (st, [])).1)
          (tr ++ (rest.foldl (accStep (doneOne api td)) (st, [])).2) := by
  intro rest
  induction rest with
  | nil =>
    intro st tr h _ _
    simpa using h
  | cons x rest ih =>
    intro st tr h hnd hks
    rw [foldl_accStep_cons]
    simp only [List.nil_append]
    rw [foldl_accStep_decomp]
    dsimp only
    rw [← List.append_assoc]
    refine ih (doneOne api td st x).1 (tr ++ (doneOne api td st x).2)
      (doneOne_inv h (fun hxtd => hks x (List.mem_cons_self x rest) hxtd))
      ((List.nodup_cons.mp hnd).2) ?_
    intro t htr httd
    have hne : t ≠ x := fun he => (List.nodup_cons.mp hnd).1 (he ▸ htr)
    have hold : t ∈ keysOf st.settledTxs := hks t (List.mem_cons_of_mem _ htr) httd
    by_cases hxtd : x ∈ td
    · rw [doneOne_fst hxtd]
      simp only [doneUpd]
      rw [mem_keysOf_eraseKey_iff h.ok.sN]
      exact ⟨hold, hne⟩
    · rw [doneOne_skip hxtd]
      exact hold

theorem processEvent_inv {api : API} {st : TrackerState} {tr : List Call}
    {e : Event} {st' : TrackerState} {Δ : List Call} (h : Inv st tr)
    (hp : processEvent api st e = some (st', Δ)) : Inv st' (tr ++ Δ) := by
  cases e with
  | newBlock bh par =>
    simp only [processEvent, Option.some.injEq] at hp
    have hfst := congrArg Prod.fst hp
    have hsnd := congrArg Prod.snd hp
    rw [onNewBlock_fst] at hfst
    rw [onNewBlock_snd] at hsnd
    subst hfst
    subst hsnd
    have h0 : Inv { st with blockParents := setEntry st.blockParents bh par } tr :=
      parentsUpd_inv h
    have h1 := traceGetBody_inv bh h0
    have h2 := settleFold_inv api bh (api.getBody bh) _ _ h1
      ((mem_keysOf_setEntry _ _).mpr (Or.inr rfl))
    simpa [List.append_assoc] using h2
  | newTransaction v =>
    simp only [processEvent, Option.some.injEq] at hp
    have hfst := congrArg Prod.fst hp
    have hsnd := congrArg Prod.snd hp
    subst hfst
    subst hsnd
    exact onNewTx_inv h
  | finalized bh =>
    simp only [processEvent] at hp
    cases hw : walkAncestors st.blockParents bh with
    | none => rw [onFinalized_none hw] at hp; simp at hp
    | some fb =>
      rw [onFinalized_some hw, Option.some.injEq] at hp
      have hfst := congrArg Prod.fst hp
      have hsnd := congrArg Prod.snd hp
      subst hfst
      subst hsnd
      refine doneFold_inv api (txsToDoneOf st fb) st.newTxs st tr h h.ok.nN ?_
      intro t _ httd
      obtain ⟨b, hm, _⟩ := mem_txsToDoneOf.mp httd
      exact mem_keysOf_of_mem hm

theorem runAux_inv (api : API) :
    ∀ (events : List Event) (st : TrackerState) (tr : List Call)
      (st' : TrackerState) (tr' : List Call),
      Inv st tr → runAux api st tr events = some (st', tr') → Inv st' tr' := by
  intro events
  induction events with
  | nil =>
    intro st tr st' tr' h hr
    simp [runAux] at hr
    rw [← hr.1, ← hr.2]
    exact h
  | cons e rest ih =>
    intro st tr st' tr' h hr
    simp only [runAux] at hr
    cases hp : processEvent api st e with
    | none => rw [hp] at hr; simp at hr
    | some p =>
      obtain ⟨p1, p2⟩ := p
      rw [hp] at hr
      exact ih p1 (tr ++ p2) st' tr' (processEvent_inv h hp) hr

theorem run_inv {api : API} {events : List Event} {st : TrackerState}
    {tr : List Call} (h : run api events = some (st, tr)) : Inv st tr :=
  runAux_inv api events initState [] st tr Inv_init h


/-! ### Concrete objects used by witnesses and counterexamples -/

/-- A concrete oracle: block `b1` holds transaction `t1`, everything is
valid and successful. -/
def apiW : API :=
  { getBody := fun b => if b = "b1" then ["t1"] else []
    isTxValid := fun _ _ => true
    isTxSuccessful := fun _ _ => true }

/-- A concrete event sequence: `b1` arrives, then `b1` is finalized. -/
def evsW : List Event := [Event.newBlock "b1" "g", Event.finalized "b1"]

/-- The state reached by `run apiW evsW`. -/
def stW : TrackerState := ⟨[], [], ["t1"], ["t1"], [("b1", "g")]⟩

/-- The trace emitted by `run apiW evsW`. -/
def trW : List Call :=
  [Call.getBody "b1", Call.isTxValid "b1" "t1", Call.isTxSuccessful "b1" "t1",
   Call.txSettled "t1" (TxOutcome.valid "b1" true),
   Call.isTxValid "b1" "t1", Call.isTxSuccessful "b1" "t1",
   Call.txDone "t1" (TxOutcome.valid "b1" true)]

/-! ### Claim theorems -/

/-- C1: for every event sequence the tracker processes to completion,
every transaction identifier receives at most one `onTxSettled` call and
at most one `onTxDone` call, and an `onTxDone` call for a transaction is
never emitted before the `onTxSettled` call for that same transaction. -/
theorem settle_done_at_most_once_and_ordered (api : API) (events : List Event)
    (st : TrackerState) (tr : List Call) (h : run api events = some (st, tr))
    (tx : String) :
    countSettled tr tx ≤ 1 ∧ countDone tr tx ≤ 1 ∧
      (∀ l₁ o l₂, tr = l₁ ++ Call.txDone tx o :: l₂ →
        ∃ o', Call.txSettled tx o' ∈ l₁) := by
  have hi := run_inv h
  refine ⟨?_, ?_, fun l₁ o l₂ he => hi.ordered tx l₁ o l₂ he⟩
  · rw [hi.settledCount tx]
    split_ifs <;> omega
  · rw [hi.doneCount tx]
    split_ifs <;> omega

/-- Witness for C1: the concrete run `run apiW evsW`. -/
theorem settle_done_at_most_once_and_ordered_inst :
    run apiW evsW = some (stW, trW) ∧
      countSettled trW "t1" ≤ 1 ∧ countDone trW "t1" ≤ 1 :=
  ⟨by decide,
   (settle_done_at_most_once_and_ordered apiW evsW stW trW (by decide) "t1").1,
   (settle_done_at_most_once_and_ordered apiW evsW stW trW (by decide) "t1").2.1⟩

/-- C10: in every reachable state, the pending set, the settled-map key
set and the done set are pairwise disjoint, and processing any further
event preserves this disjointness. -/
theorem lifecycle_disjoint (api : API) (events : List Event)
    (st : TrackerState) (tr : List Call) (h : run api events = some (st, tr)) :
    (∀ tx, tx ∈ st.pendingTxs → tx ∉ keysOf st.settledTxs ∧ tx ∉ st.doneTxs) ∧
    (∀ tx, tx ∈ keysOf st.settledTxs → tx ∉ st.doneTxs) ∧
    (∀ e st' Δ, processEvent api st e = some (st', Δ) →
      (∀ tx, tx ∈ st'.pendingTxs → tx ∉ keysOf st'.settledTxs ∧ tx ∉ st'.doneTxs) ∧
      (∀ tx, tx ∈ keysOf st'.settledTxs → tx ∉ st'.doneTxs)) := by
  have hi := run_inv h
  refine ⟨fun tx htx => ⟨hi.ok.disjPS tx htx, hi.ok.disjPD tx htx⟩, hi.ok.disjSD, ?_⟩
  intro e st' Δ hp
  have hi' := processEvent_inv hi hp
  exact ⟨fun tx htx => ⟨hi'.ok.disjPS tx htx, hi'.ok.disjPD tx htx⟩, hi'.ok.disjSD⟩

/-- Witness for C10: the concrete run `run apiW evsW`. -/
theorem lifecycle_disjoint_inst :
    run apiW evsW = some (stW, trW) ∧
      (∀ tx, tx ∈ keysOf stW.settledTxs → tx ∉ stW.doneTxs) :=
  ⟨by decide, (lifecycle_disjoint apiW evsW stW trW (by decide)).2.1⟩

/-- C6: a `NewTransaction` event for an already-known transaction
(pending, settled or done) is a no-op: the state is unchanged, nothing
is appended to the arrival queue, and no calls are emitted. -/
theorem duplicate_submission_noop (api : API) (st : TrackerState) (tx : String)
    (h : tx ∈ st.pendingTxs ∨ tx ∈ keysOf st.settledTxs ∨ tx ∈ st.doneTxs) :
    processEvent api st (Event.newTransaction tx) = some (st, []) := by
  simp only [processEvent]
  rw [onNewTx_known h]

/-- Witness for C6: re-announcing the already-done `t1` changes nothing. -/
theorem duplicate_submission_noop_inst :
    ("t1" ∈ stW.pendingTxs ∨ "t1" ∈ keysOf stW.settledTxs ∨ "t1" ∈ stW.doneTxs) ∧
      processEvent apiW stW (Event.newTransaction "t1") = some (stW, []) :=
  ⟨by decide, duplicate_submission_noop apiW stW "t1" (by decide)⟩


/-! ### No call is ever an unpin -/

theorem settleOne_calls_no_unpin {api : API} {bh : String} {st : TrackerState}
    {tx : String} {c : Call} (hc : c ∈ (settleOne api bh st tx).2) :
    isUnpinCall c = false := by
  by_cases h : tx ∈ keysOf st.settledTxs ∨ tx ∈ st.doneTxs
  · rw [settleOne_skip h] at hc
    simp at hc
  · rw [settleOne_snd h] at hc
    split_ifs at hc
    · simp at hc
      rcases hc with rfl | rfl | rfl <;> rfl
    · simp at hc
      rcases hc with rfl | rfl <;> rfl

theorem doneOne_calls_no_unpin {api : API} {td : List String} {st : TrackerState}
    {tx : String} {c : Call} (hc : c ∈ (doneOne api td st tx).2) :
    isUnpinCall c = false := by
  by_cases h : tx ∈ td
  · rw [doneOne_snd h] at hc
    split_ifs at hc
    · simp at hc
      rcases hc with rfl | rfl | rfl <;> rfl
    · simp at hc
      rcases hc with rfl | rfl <;> rfl
  · rw [doneOne_skip h] at hc
    simp at hc

theorem foldl_accStep_mem_calls {g : TrackerState → String → TrackerState × List Call}
    {P : Call → Prop} (hg : ∀ st x c, c ∈ (g st x).2 → P c) :
    ∀ (l : List String) (st : TrackerState) (calls : List Call) (c : Call),
      c ∈ (l.foldl (accStep g) (st, calls)).2 → c ∈ calls ∨ P c := by
  intro l
  induction l with
  | nil =>
    intro st calls c hc
    exact Or.inl hc
  | cons x l ih =>
    intro st calls c hc
    rw [foldl_accStep_cons] at hc
    rcases ih _ _ c hc with h1 | h1
    · rcases List.mem_append.mp h1 with h2 | h2
      · exact Or.inl h2
      · exact Or.inr (hg st x c h2)
    · exact Or.inr h1

theorem onNewTx_snd (st : TrackerState) (v : String) : (onNewTx st v).2 = [] := by
  unfold onNewTx
  split_ifs <;> rfl

theorem processEvent_no_unpin {api : API} {st : TrackerState} {e : Event}
    {st' : TrackerState} {Δ : List Call}
    (hp : processEvent api st e = some (st', Δ)) (bs : List String) :
    Call.unpin bs ∉ Δ := by
  intro hmem
  have hfalse : isUnpinCall (Call.unpin bs) = false := by
    cases e with
    | newBlock bh par =>
      simp only [processEvent, Option.some.injEq] at hp
      have hsnd := congrArg Prod.snd hp
      rw [onNewBlock_snd] at hsnd
      subst hsnd
      rcases List.mem_cons.mp hmem with h1 | h1
      · simp at h1
      · rcases foldl_accStep_mem_calls
          (fun st2 x c hc => settleOne_calls_no_unpin hc) _ _ _ _ h1 with h2 | h2
        · simp at h2
        · exact h2
    | newTransaction v =>
      simp only [processEvent, Option.some.injEq] at hp
      have hsnd := congrArg Prod.snd hp
      rw [onNewTx_snd] at hsnd
      subst hsnd
      simp at hmem
    | finalized bh =>
      simp only [processEvent] at hp
      cases hw : walkAncestors st.blockParents bh with
      | none => rw [onFinalized_none hw] at hp; simp at hp
      | some fb =>
        rw [onFinalized_some hw, Option.some.injEq] at hp
        have hsnd := congrArg Prod.snd hp
        subst hsnd
        rcases foldl_accStep_mem_calls
          (fun st2 x c hc => doneOne_calls_no_unpin hc) _ _ _ _ hmem with h2 | h2
        · simp at h2
        · exact h2
  simp [isUnpinCall] at hfalse

theorem runAux_no_unpin (api : API) :
    ∀ (events : List Event) (st : TrackerState) (tr : List Call)
      (st' : TrackerState) (tr' : List Call),
      (∀ bs, Call.unpin bs ∉ tr) → runAux api st tr events = some (st', tr') →
      ∀ bs, Call.unpin bs ∉ tr' := by
  intro events
  induction events with
  | nil =>
    intro st tr st' tr' h hr
    simp [runAux] at hr
    rw [← hr.2]
    exact h
  | cons e rest ih =>
    intro st tr st' tr' h hr
    simp only [runAux] at hr
    cases hp : processEvent api st e with
    | none => rw [hp] at hr; simp at hr
    | some p =>
      obtain ⟨p1, p2⟩ := p
      rw [hp] at hr
      refine ih p1 (tr ++ p2) st' tr' (fun bs hmem => ?_) hr
      rcases List.mem_append.mp hmem with h1 | h1
      · exact h bs h1
      · exact processEvent_no_unpin hp bs h1

/-- C4 counterexample: the run `run apiW evsW` contains a `Finalized`
event, yet its trace holds no `unpin` call at all — the tracker never
calls `api.unpin`, so no blocks are ever released. -/
theorem unpin_never_called_cex :
    run apiW evsW = some (stW, trW) ∧ Event.finalized "b1" ∈ evsW ∧
      trW.countP isUnpinCall = 0 :=
  ⟨by decide, by decide, by decide⟩

/-- C4 amended: the tracker never emits an `unpin` call on any event
sequence; block pruning is not implemented. -/
theorem unpin_never_called (api : API) (events : List Event)
    (st : TrackerState) (tr : List Call) (h : run api events = some (st, tr))
    (bs : List String) : Call.unpin bs ∉ tr :=
  runAux_no_unpin api events initState [] st tr (fun _ hmem => by simp at hmem) h bs

/-- Witness for the amended C4 at the concrete run. -/
theorem unpin_never_called_inst :
    run apiW evsW = some (stW, trW) ∧ Call.unpin ["b1"] ∉ trW :=
  ⟨by decide, unpin_never_called apiW evsW stW trW (by decide) ["b1"]⟩

/-! ### Finalizing an unseen block -/

theorem doneFold_nil_td (api : API) :
    ∀ (rest : List String) (st : TrackerState) (calls : List Call),
      rest.foldl (accStep (doneOne api [])) (st, calls) = (st, calls) := by
  intro rest
  induction rest with
  | nil => intro st calls; rfl
  | cons x rest ih =>
    intro st calls
    rw [foldl_accStep_cons, doneOne_skip (List.not_mem_nil x)]
    simpa using ih st calls

/-- C7 counterexample: finalizing the never-seen block `b9` from the
initial state is graceful (state unchanged, no calls), but the ancestry
walk is the singleton `[b9]`, not the empty set claimed. -/
theorem unknown_finalized_cex :
    processEvent apiW initState (Event.finalized "b9") = some (initState, []) ∧
      walkAncestors initState.blockParents "b9" = some ["b9"] ∧
      (["b9"] : List String) ≠ [] :=
  ⟨by decide, by decide, by decide⟩

/-- C7 amended: a `Finalized` event for a block never seen via `NewBlock`
is handled gracefully: the ancestry walk stops immediately and yields
only the unknown block itself (empty for the empty hash); since no
transaction is settled in an unseen block, no transaction becomes done,
no calls are emitted, and the handler returns the state unchanged. -/
theorem unknown_finalized_graceful (api : API) (st : TrackerState) (bh : String)
    (hun : bh ∉ keysOf st.blockParents)
    (hbs : ∀ p ∈ st.settledTxs, p.2 ∈ keysOf st.blockParents) :
    processEvent api st (Event.finalized bh) = some (st, []) ∧
      walkAncestors st.blockParents bh = some (if bh = "" then [] else [bh]) := by
  have hlook : alookup st.blockParents bh = none := (alookup_eq_none_iff _ _).mpr hun
  have hwalk : walkAncestors st.blockParents bh =
      some (if bh = "" then [] else [bh]) := by
    unfold walkAncestors
    by_cases hb : bh = ""
    · subst hb
      simp [walkList]
    · simp [walkList, hb, parentStep, hlook]
  refine ⟨?_, hwalk⟩
  simp only [processEvent]
  rw [onFinalized_some hwalk]
  have htd : txsToDoneOf st (if bh = "" then [] else [bh]) = [] := by
    unfold txsToDoneOf
    rw [List.filter_eq_nil_iff.mpr ?_]
    · rfl
    · intro p hp
      by_cases hb : bh = "" <;> simp [hb]
      intro he
      exact hun (he ▸ hbs p hp)
  rw [htd, doneFold_nil_td]

/-- A state with one settled transaction `t3` (settled in `b1`) and one
recorded parent link `b1 -> g`. -/
def stC7 : TrackerState := ⟨[], [("t3", "b1")], [], ["t3"], [("b1", "g")]⟩

/-- Witness for the amended C7: a state with one settled transaction and
one recorded block, finalizing the unknown `bX`. -/
theorem unknown_finalized_graceful_inst :
    ("bX" ∉ keysOf stC7.blockParents) ∧
      processEvent apiW stC7 (Event.finalized "bX") = some (stC7, []) :=
  ⟨by decide,
   (unknown_finalized_graceful apiW stC7 "bX" (by decide) (by decide)).1⟩

/-! ### The ancestry walk: root detection, no cycle guard -/

/-- C9 counterexample: with the self-parent link `a -> a` the ancestry
walk exhausts any fuel — the parent step maps `a` to itself, so the
source loop never reaches a block with no recorded parent and never
terminates: there is no defensive cycle guard. -/
theorem walk_cycle_cex :
    walkAncestors [("a", "a")] "a" = none ∧
      parentStep [("a", "a")] "a" = "a" ∧ ("a" : String) ≠ "" :=
  ⟨by decide, by decide, by decide⟩

/-- C9 amended: a terminating ancestry walk follows the recorded parent
links and stops exactly at the first block whose parent lookup is empty
(the chain root); but the walk is not guarded against cycles: on the
self-parent link `a -> a` it fails to terminate for every amount of fuel. -/
theorem walk_root_and_cycle :
    (∀ (parents : List (String × String)) (f : Nat) (s : String) (l : List String),
      walkList parents f s = some l →
      List.Chain' (fun x y => parentStep parents x = y) l ∧
      (∀ x ∈ l, x ≠ "") ∧ (l = [] ↔ s = "") ∧
      (∀ z, l.getLast? = some z → parentStep parents z = "")) ∧
    (∀ fuel : Nat, walkList [("a", "a")] fuel "a" = none) := by
  constructor
  · intro parents f s l h
    obtain ⟨h1, h2, h3, _, h5⟩ := walkList_sound parents f s l h
    exact ⟨h1, h2, h3, h5⟩
  · exact walkList_self_loop

/-- Witness for the amended C9: the two-block chain `b1 -> g` walks to the
root `g` whose parent lookup is empty, and the self-loop diverges at the
concrete fuel 5. -/
theorem walk_root_and_cycle_inst :
    walkList [("b1", "g")] 3 "b1" = some ["b1", "g"] ∧
      parentStep [("b1", "g")] "g" = "" ∧
      walkList [("a", "a")] 5 "a" = none :=
  ⟨by decide,
   (walk_root_and_cycle.1 [("b1", "g")] 3 "b1" ["b1", "g"] (by decide)).2.2.2 "g"
     (by decide),
   walk_root_and_cycle.2 5⟩


/-! ### Transactions in the finalized ancestor set become done -/

theorem doneOne_done_mono {api : API} {td : List String} {st : TrackerState}
    {y tx : String} (h : tx ∈ st.doneTxs) :
    tx ∈ (doneOne api td st y).1.doneTxs := by
  by_cases hy : y ∈ td
  · rw [doneOne_fst hy]
    simp only [doneUpd]
    split_ifs
    · exact h
    · exact List.mem_append_left _ h
  · rw [doneOne_skip hy]
    exact h

theorem doneFold_mem (api : API) (td : List String) :
    ∀ (rest : List String) (st : TrackerState) (calls : List Call) (tx : String),
      tx ∈ rest → tx ∈ td →
      tx ∈ ((rest.foldl (accStep (doneOne api td)) (st, calls)).1).doneTxs ∧
        ∃ o, Call.txDone tx o ∈ (rest.foldl (accStep (doneOne api td)) (st, calls)).2 := by
  intro rest
  induction rest with
  | nil =>
    intro st calls tx h _
    simp at h
  | cons x rest ih =>
    intro st calls tx hmem htd
    rw [foldl_accStep_cons]
    rcases List.mem_cons.mp hmem with he | hrest
    · subst he
      constructor
      · refine foldl_accStep_state (Q := fun s => tx ∈ s.doneTxs)
          (fun st2 y hy => doneOne_done_mono hy) rest _ _ ?_
        rw [doneOne_fst htd]
        simp only [doneUpd]
        split_ifs with h0
        · exact h0
        · exact List.mem_append_right _ (List.mem_cons_self _ _)
      · rw [foldl_accStep_snd]
        have hd : ∃ o, Call.txDone tx o ∈ (doneOne api td st tx).2 := by
          rw [doneOne_snd htd]
          split_ifs
          · exact ⟨TxOutcome.valid ((alookup st.settledTxs tx).getD "")
              (api.isTxSuccessful ((alookup st.settledTxs tx).getD "") tx), by simp⟩
          · exact ⟨TxOutcome.invalid ((alookup st.settledTxs tx).getD ""), by simp⟩
        obtain ⟨o, ho⟩ := hd
        exact ⟨o, List.mem_append_left _ (List.mem_append_right _ ho)⟩
    · exact ih _ _ tx hrest htd

/-- C5: finalization is retroactive and transitive: a `Finalized(bh)`
event walks the recorded parent links, and every transaction whose
settlement block is any ancestor at depth `k` on that walk (all blocks up
to it being nonempty) becomes done and receives an `onTxDone` call, with
no requirement that the intermediate blocks ever received their own
`Finalized` events. -/
theorem finalization_retroactive (api : API) (events : List Event)
    (st : TrackerState) (tr : List Call) (h : run api events = some (st, tr))
    (bh : String) (st' : TrackerState) (tr' : List Call)
    (hf : onFinalized api st bh = some (st', tr'))
    (k : Nat) (tx : String)
    (hne : ∀ j, j ≤ k → parentIterN st.blockParents j bh ≠ "")
    (hs : alookup st.settledTxs tx = some (parentIterN st.blockParents k bh)) :
    tx ∈ st'.doneTxs ∧ ∃ o, Call.txDone tx o ∈ tr' := by
  have hi := run_inv h
  cases hw : walkAncestors st.blockParents bh with
  | none => rw [onFinalized_none hw] at hf; simp at hf
  | some fb =>
    rw [onFinalized_some hw, Option.some.injEq] at hf
    have hmemfb : parentIterN st.blockParents k bh ∈ fb :=
      walkList_mem_iter st.blockParents k _ bh fb hw hne
    have htd : tx ∈ txsToDoneOf st fb :=
      mem_txsToDoneOf.mpr ⟨_, alookup_some_mem hs, hmemfb⟩
    have hnew : tx ∈ st.newTxs :=
      (hi.ok.newIff tx).mpr (Or.inr (Or.inl (mem_keysOf_of_mem (alookup_some_mem hs))))
    have hfst := congrArg Prod.fst hf
    have hsnd := congrArg Prod.snd hf
    subst hfst
    subst hsnd
    exact doneFold_mem api (txsToDoneOf st fb) st.newTxs st [] tx hnew htd

/-- Oracle for the finalization-gap scenario: `b1` holds `t3`, `b2` is
empty. -/
def apiC5 : API :=
  { getBody := fun b => if b = "b1" then ["t3"] else []
    isTxValid := fun _ _ => true
    isTxSuccessful := fun _ _ => true }

/-- Events of the finalization-gap scenario: the chain `g <- b1 <- b2`
arrives; `b1` is never individually finalized. -/
def evsC5 : List Event := [Event.newBlock "b1" "g", Event.newBlock "b2" "b1"]

/-- State after `run apiC5 evsC5`. -/
def stC5 : TrackerState :=
  ⟨[], [("t3", "b1")], [], ["t3"], [("b1", "g"), ("b2", "b1")]⟩

/-- Trace of `run apiC5 evsC5`. -/
def trC5 : List Call :=
  [Call.getBody "b1", Call.isTxValid "b1" "t3", Call.isTxSuccessful "b1" "t3",
   Call.txSettled "t3" (TxOutcome.valid "b1" true), Call.getBody "b2"]

/-- State after then finalizing `b2` directly. -/
def stC5f : TrackerState :=
  ⟨[], [], ["t3"], ["t3"], [("b1", "g"), ("b2", "b1")]⟩

/-- Trace of that `Finalized(b2)` event. -/
def trC5f : List Call :=
  [Call.isTxValid "b1" "t3", Call.isTxSuccessful "b1" "t3",
   Call.txDone "t3" (TxOutcome.valid "b1" true)]

/-- Witness for C5: `t3` settles in `b1`; finalizing `b2` (skipping `b1`)
still completes `t3` — the ancestor at depth 1 is `b1`. -/
theorem finalization_retroactive_inst :
    run apiC5 evsC5 = some (stC5, trC5) ∧
      onFinalized apiC5 stC5 "b2" = some (stC5f, trC5f) ∧
      "t3" ∈ stC5f.doneTxs :=
  ⟨by decide, by decide,
   (finalization_retroactive apiC5 evsC5 stC5 trC5 (by decide) "b2" stC5f trC5f
     (by decide) 1 "t3" (by decide) (by decide)).1⟩


/-! ### Oracle-call counting -/

theorem countValidCalls_settleOne {api : API} {bh : String} {st : TrackerState}
    {x : String} (tx : String) (h : ¬(x ∈ keysOf st.settledTxs ∨ x ∈ st.doneTxs)) :
    countValidCalls (settleOne api bh st x).2 bh tx = if tx = x then 1 else 0 := by
  rw [settleOne_snd h]
  by_cases htx : tx = x
  · subst htx
    by_cases hv : api.isTxValid bh tx = true <;>
      simp [hv, countValidCalls, List.countP_cons]
  · have hxt : ¬x = tx := fun he => htx he.symm
    by_cases hv : api.isTxValid bh x = true <;>
      simp [hv, countValidCalls, List.countP_cons, htx, hxt]

theorem settleFold_validCount (api : API) (bh : String) (tx : String) :
    ∀ (body : List String) (st : TrackerState),
      countValidCalls ((body.foldl (accStep (settleOne api bh)) (st, [])).2) bh tx =
        (if tx ∈ body ∧ tx ∉ keysOf st.settledTxs ∧ tx ∉ st.doneTxs then 1 else 0) := by
  intro body
  induction body with
  | nil =>
    intro st
    simp [countValidCalls]
  | cons x body ih =>
    intro st
    rw [foldl_accStep_cons]
    simp only [List.nil_append]
    rw [foldl_accStep_snd, countValidCalls_append, ih]
    by_cases hx : x ∈ keysOf st.settledTxs ∨ x ∈ st.doneTxs
    · rw [settleOne_skip hx]
      simp only [countValidCalls, List.countP_nil, Nat.zero_add]
      by_cases htx : tx = x
      · subst htx
        rcases hx with h1 | h1 <;> simp [h1]
      · simp [List.mem_cons, htx]
    · rw [countValidCalls_settleOne tx hx, settleOne_fst hx]
      simp only [settleUpd]
      by_cases htx : tx = x
      · subst htx
        have hk : tx ∈ keysOf (setEntry st.settledTxs tx bh) :=
          (mem_keysOf_setEntry _ _).mpr (Or.inr rfl)
        push_neg at hx
        simp [hk, hx.1, hx.2]
      · simp only [mem_keysOf_setEntry, List.mem_cons, htx, if_false, false_or,
          Nat.zero_add]
        simp [htx]
  -- end

theorem countValidCalls_doneOne {api : API} {td : List String} {st : TrackerState}
    {x : String} (tx b : String) (h : x ∈ td) :
    countValidCalls (doneOne api td st x).2 b tx =
      if tx = x ∧ (alookup st.settledTxs x).getD "" = b then 1 else 0 := by
  rw [doneOne_snd h]
  by_cases htx : tx = x
  · subst htx
    by_cases hb : (alookup st.settledTxs tx).getD "" = b
    · subst hb
      by_cases hv : api.isTxValid ((alookup st.settledTxs tx).getD "") tx = true <;>
        simp [hv, countValidCalls, List.countP_cons]
    · have hbt : ¬(alookup st.settledTxs tx).getD "" = b := hb
      by_cases hv : api.isTxValid ((alookup st.settledTxs tx).getD "") tx = true <;>
        simp [hv, countValidCalls, List.countP_cons, hbt]
  · have hxt : ¬x = tx := fun he => htx he.symm
    by_cases hv : api.isTxValid ((alookup st.settledTxs x).getD "") x = true <;>
      simp [hv, countValidCalls, List.countP_cons, htx, hxt]

theorem doneFold_validCount (api : API) (td : List String) (tx b : String) :
    ∀ (rest : List String) (st : TrackerState),
      rest.Nodup →
      (tx ∈ rest → tx ∈ td → alookup st.settledTxs tx = some b) →
      countValidCalls ((rest.foldl (accStep (doneOne api td)) (st, [])).2) b tx =
        (if tx ∈ rest ∧ tx ∈ td then 1 else 0) := by
  intro rest
  induction rest with
  | nil =>
    intro st _ _
    simp [countValidCalls]
  | cons x rest ih =>
    intro st hnd hlk
    obtain ⟨hxr, hnd'⟩ := List.nodup_cons.mp hnd
    rw [foldl_accStep_cons]
    simp only [List.nil_append]
    rw [foldl_accStep_snd, countValidCalls_append]
    by_cases hx : x ∈ td
    · rw [countValidCalls_doneOne tx b hx]
      by_cases htx : tx = x
      · subst htx
        have hlk1 : (alookup st.settledTxs tx).getD "" = b := by
          rw [hlk (List.mem_cons_self _ _) hx]
          rfl
        have hnr : tx ∉ rest := hxr
        rw [ih _ hnd' (fun h1 _ => absurd h1 hnr)]
        simp [hlk1, hx, hnr]
      · have hxt : ¬x = tx := fun he => htx he.symm
        rw [ih _ hnd' ?_]
        · simp [List.mem_cons, htx, hxt]
        · intro h1 h2
          rw [doneOne_fst hx]
          simp only [doneUpd]
          rw [alookup_eraseKey_ne _ htx]
          exact hlk (List.mem_cons_of_mem _ h1) h2
    · rw [doneOne_skip hx]
      rw [show countValidCalls ([] : List Call) b tx = 0 from rfl, Nat.zero_add]
      rw [ih _ hnd' (fun h1 h2 => hlk (List.mem_cons_of_mem _ h1) h2)]
      by_cases htx : tx = x
      · subst htx
        simp [hx]
      · simp [List.mem_cons, htx]

/-- C3 counterexample: in the concrete run `run apiW evsW`, the oracle
pair for `(b1, t1)` is queried twice — `isTxValid` is called once at
settlement and once more inside the `Finalized` handler — so the outcome
is recomputed, not reused from a cache. -/
theorem outcome_not_cached_cex :
    run apiW evsW = some (stW, trW) ∧ countValidCalls trW "b1" "t1" = 2 :=
  ⟨by decide, by decide⟩

/-- C3 amended: within one `NewBlock` event the `isTxValid` oracle call
for `(blockHash, tx)` happens exactly once when `tx` settles in that
event and never otherwise; and the `Finalized` handler does not reuse a
cached outcome — it calls `isTxValid` on the settlement block again,
exactly once, for each settled transaction whose settlement block is in
the finalized ancestor set. -/
theorem oracle_calls_per_event :
    (∀ (api : API) (st : TrackerState) (bh par tx : String),
      countValidCalls (onNewBlock api st bh par).2 bh tx =
        (if tx ∈ api.getBody bh ∧ tx ∉ keysOf st.settledTxs ∧ tx ∉ st.doneTxs
         then 1 else 0)) ∧
    (∀ (api : API) (events : List Event) (st : TrackerState) (tr : List Call)
       (bh : String) (st' : TrackerState) (tr' : List Call) (fb : List String)
       (tx b : String),
      run api events = some (st, tr) →
      onFinalized api st bh = some (st', tr') →
      walkAncestors st.blockParents bh = some fb →
      alookup st.settledTxs tx = some b →
      countValidCalls tr' b tx = (if b ∈ fb then 1 else 0)) := by
  constructor
  · intro api st bh par tx
    rw [onNewBlock_snd]
    simp only [countValidCalls, List.countP_cons]
    rw [show (List.countP (fun c => c == Call.isTxValid bh tx)
      ((api.getBody bh).foldl (accStep (settleOne api bh))
        ({ st with blockParents := setEntry st.blockParents bh par }, [])).2) =
      countValidCalls ((api.getBody bh).foldl (accStep (settleOne api bh))
        ({ st with blockParents := setEntry st.blockParents bh par }, [])).2 bh tx
      from rfl]
    rw [settleFold_validCount]
    simp
  · intro api events st tr bh st' tr' fb tx b hrun hf hw hs
    have hi := run_inv hrun
    rw [onFinalized_some hw, Option.some.injEq] at hf
    have hsnd := congrArg Prod.snd hf
    subst hsnd
    have htx_keys : tx ∈ keysOf st.settledTxs := mem_keysOf_of_mem (alookup_some_mem hs)
    have hnew : tx ∈ st.newTxs := (hi.ok.newIff tx).mpr (Or.inr (Or.inl htx_keys))
    rw [doneFold_validCount api (txsToDoneOf st fb) tx b st.newTxs st hi.ok.nN
      (fun _ _ => hs)]
    have hiff : (tx ∈ st.newTxs ∧ tx ∈ txsToDoneOf st fb) ↔ b ∈ fb := by
      constructor
      · rintro ⟨_, htd⟩
        obtain ⟨b', hb'm, hb'f⟩ := mem_txsToDoneOf.mp htd
        have : alookup st.settledTxs tx = some b' := mem_alookup hi.ok.sN hb'm
        rw [hs] at this
        exact (Option.some.injEq .. ▸ this) ▸ hb'f
      · intro hbf
        exact ⟨hnew, mem_txsToDoneOf.mpr ⟨b, alookup_some_mem hs, hbf⟩⟩
    simp only [hiff]

/-- Witness for the amended C3: one lookup at settlement in the first
block event; one more lookup when `t3` becomes done in the finalization
of the gap scenario. -/
theorem oracle_calls_per_event_inst :
    countValidCalls (onNewBlock apiW initState "b1" "g").2 "b1" "t1" = 1 ∧
      countValidCalls trC5f "b1" "t3" = 1 :=
  ⟨(oracle_calls_per_event.1 apiW initState "b1" "g" "t1").trans (by decide),
   (oracle_calls_per_event.2 apiC5 evsC5 stC5 trC5 "b2" stC5f trC5f
      ["b2", "b1", "g"] "t3" "b1" (by decide) (by decide) (by decide)
      (by decide)).trans (by decide)⟩


/-! ### Callback ordering -/

theorem foldl_accStep_decomp2 (g : TrackerState → String → TrackerState × List Call)
    (l : List String) (acc : TrackerState × List Call) :
    l.foldl (accStep g) acc =
      ((l.foldl (accStep g) (acc.1, [])).1,
        acc.2 ++ (l.foldl (accStep g) (acc.1, [])).2) := by
  obtain ⟨s, c⟩ := acc
  exact foldl_accStep_decomp g l s c

theorem foldl_accStep_mem_calls_of {g : TrackerState → String → TrackerState × List Call}
    {P : Call → Prop} :
    ∀ (l : List String), (∀ st x c, x ∈ l → c ∈ (g st x).2 → P c) →
      ∀ (st : TrackerState) (calls : List Call) (c : Call),
        c ∈ (l.foldl (accStep g) (st, calls)).2 → c ∈ calls ∨ P c := by
  intro l
  induction l with
  | nil =>
    intro _ st calls c hc
    exact Or.inl hc
  | cons x l ih =>
    intro hg st calls c hc
    rw [foldl_accStep_cons] at hc
    rcases ih (fun st2 y c2 hy hc2 => hg st2 y c2 (List.mem_cons_of_mem _ hy) hc2)
        _ _ c hc with h1 | h1
    · rcases List.mem_append.mp h1 with h2 | h2
      · exact Or.inl h2
      · exact Or.inr (hg st x c (List.mem_cons_self _ _) h2)
    · exact Or.inr h1

theorem settleOne_insd_mono {api : API} {bh : String} {st : TrackerState}
    {x t : String} (h : t ∈ keysOf st.settledTxs ∨ t ∈ st.doneTxs) :
    t ∈ keysOf (settleOne api bh st x).1.settledTxs ∨
      t ∈ (settleOne api bh st x).1.doneTxs := by
  by_cases hc : x ∈ keysOf st.settledTxs ∨ x ∈ st.doneTxs
  · rw [settleOne_skip hc]
    exact h
  · rw [settleOne_fst hc]
    simp only [settleUpd]
    rcases h with h | h
    · exact Or.inl ((mem_keysOf_setEntry _ _).mpr (Or.inl h))
    · exact Or.inr h

theorem settleFold_no_settled_of_insd (api : API) (bh : String) (t : String) :
    ∀ (l : List String) (st : TrackerState) (calls : List Call),
      (t ∈ keysOf st.settledTxs ∨ t ∈ st.doneTxs) →
      (∀ o, Call.txSettled t o ∉ calls) →
      ∀ o, Call.txSettled t o ∉ (l.foldl (accStep (settleOne api bh)) (st, calls)).2 := by
  intro l
  induction l with
  | nil =>
    intro st calls _ hc o
    exact hc o
  | cons x l ih =>
    intro st calls hin hc o
    rw [foldl_accStep_cons]
    refine ih _ _ (settleOne_insd_mono hin) ?_ o
    intro o' hmem
    rcases List.mem_append.mp hmem with h1 | h1
    · exact hc o' h1
    · have hx : t = x := txSettled_mem_settleOne h1
      subst hx
      rw [settleOne_skip hin] at h1
      simp at h1

theorem eq_append_cons_of_not_mem {α : Type} {w z l₁ l₂ : List α} {x : α}
    (he : w ++ z = l₁ ++ x :: l₂) (hx : x ∉ w) : ∃ z₁, l₁ = w ++ z₁ := by
  rcases List.append_eq_append_iff.mp he with ⟨a', h1, _⟩ | ⟨c', h1, h2⟩
  · exact ⟨a', h1⟩
  · cases c' with
    | nil => exact ⟨[], by simp [h1]⟩
    | cons y c'' =>
      simp only [List.cons_append, List.cons.injEq] at h2
      exact absurd (h1 ▸ List.mem_append_right l₁
        (h2.1 ▸ List.mem_cons_self y c'')) hx

theorem doneTxsOfTrace_doneOne (api : API) (td : List String) (st : TrackerState)
    (x : String) :
    doneTxsOfTrace (doneOne api td st x).2 = if x ∈ td then [x] else [] := by
  by_cases h : x ∈ td
  · rw [doneOne_snd h]
    split_ifs <;> simp [doneTxsOfTrace, h]
  · rw [doneOne_skip h]
    simp [doneTxsOfTrace, h]

theorem doneFold_doneTxs (api : API) (td : List String) :
    ∀ (rest : List String) (st : TrackerState) (calls : List Call),
      doneTxsOfTrace ((rest.foldl (accStep (doneOne api td)) (st, calls)).2) =
        doneTxsOfTrace calls ++ rest.filter (fun t => decide (t ∈ td)) := by
  intro rest
  induction rest with
  | nil =>
    intro st calls
    simp
  | cons x rest ih =>
    intro st calls
    rw [foldl_accStep_cons, ih, doneTxsOfTrace_append, doneTxsOfTrace_doneOne]
    by_cases h : x ∈ td <;> simp [h, List.filter_cons]

/-- C2: callbacks are ordered.  First, if `A` appears before `B` in the
block body (at their first occurrences) and both receive `onTxSettled`
during this `NewBlock` event, then the `onTxSettled` of `A` is emitted
before that of `B`.  Second, the `onTxDone` calls of one `Finalized`
event list transactions as a sublist of the arrival queue `newTxs`, i.e.
in first-seen order, not block order. -/
theorem callback_order :
    (∀ (api : API) (st : TrackerState) (bh par : String) (A B : String)
       (u v : List String),
      api.getBody bh = u ++ A :: v → A ∉ u → B ∉ u → B ≠ A →
      (∃ oA, Call.txSettled A oA ∈ (onNewBlock api st bh par).2) →
      ∀ l₁ o l₂, (onNewBlock api st bh par).2 = l₁ ++ Call.txSettled B o :: l₂ →
        ∃ o', Call.txSettled A o' ∈ l₁) ∧
    (∀ (api : API) (st : TrackerState) (bh : String) (st' : TrackerState)
       (tr' : List Call),
      onFinalized api st bh = some (st', tr') →
      List.Sublist (doneTxsOfTrace tr') st.newTxs) := by
  constructor
  · intro api st bh par A B u v hbody hAu hBu hBA hA l₁ o l₂ hdec
    have hON : (onNewBlock api st bh par).2 =
        ((u ++ A :: v).foldl (accStep (settleOne api bh))
          ({ st with blockParents := setEntry st.blockParents bh par },
            [Call.getBody bh])).2 := by
      unfold onNewBlock
      rw [hbody]
    rw [hON, List.foldl_append, List.foldl_cons, foldl_accStep_decomp2] at hA hdec
    simp only [accStep] at hA hdec
    have hcu : ∀ c ∈ ((u.foldl (accStep (settleOne api bh))
        ({ st with blockParents := setEntry st.blockParents bh par },
          [Call.getBody bh])).2),
        (∀ o', c ≠ Call.txSettled A o') ∧ (∀ o', c ≠ Call.txSettled B o') := by
      intro c hc
      have hg : ∀ (st2 : TrackerState) (x : String) (c' : Call), x ∈ u →
          c' ∈ (settleOne api bh st2 x).2 →
          (∀ o', c' ≠ Call.txSettled A o') ∧ (∀ o', c' ≠ Call.txSettled B o') := by
        intro st2 x c' hxu hc'
        constructor
        · intro o' he
          rw [he] at hc'
          exact hAu ((txSettled_mem_settleOne hc') ▸ hxu)
        · intro o' he
          rw [he] at hc'
          exact hBu ((txSettled_mem_settleOne hc') ▸ hxu)
      rcases foldl_accStep_mem_calls_of u hg _ _ c hc with h1 | h1
      · simp only [List.mem_singleton] at h1
        subst h1
        exact ⟨fun o' he => Call.noConfusion he, fun o' he => Call.noConfusion he⟩
      · exact h1
    by_cases hins :
        A ∈ keysOf ((u.foldl (accStep (settleOne api bh))
          ({ st with blockParents := setEntry st.blockParents bh par },
            [Call.getBody bh])).1).settledTxs ∨
        A ∈ ((u.foldl (accStep (settleOne api bh))
          ({ st with blockParents := setEntry st.blockParents bh par },
            [Call.getBody bh])).1).doneTxs
    · exfalso
      obtain ⟨oA, hoA⟩ := hA
      rw [settleOne_skip hins] at hoA
      simp only [List.append_nil] at hoA
      rcases List.mem_append.mp hoA with h1 | h1
      · exact (hcu _ h1).1 oA rfl
      · exact settleFold_no_settled_of_insd api bh A v _ [] hins
          (fun o' hx => by simp at hx) oA h1
    · have hoA' : ∃ oA', Call.txSettled A oA' ∈
          (settleOne api bh ((u.foldl (accStep (settleOne api bh))
            ({ st with blockParents := setEntry st.blockParents bh par },
              [Call.getBody bh])).1) A).2 := by
        rw [settleOne_snd hins]
        split_ifs
        · exact ⟨_, List.mem_cons_of_mem _ (List.mem_cons_of_mem _
            (List.mem_cons_self _ _))⟩
        · exact ⟨_, List.mem_cons_of_mem _ (List.mem_cons_self _ _)⟩
      obtain ⟨oA', hoA'⟩ := hoA'
      have hBnot : Call.txSettled B o ∉
          ((u.foldl (accStep (settleOne api bh))
            ({ st with blockParents := setEntry st.blockParents bh par },
              [Call.getBody bh])).2 ++
           (settleOne api bh ((u.foldl (accStep (settleOne api bh))
            ({ st with blockParents := setEntry st.blockParents bh par },
              [Call.getBody bh])).1) A).2) := by
        intro hmem
        rcases List.mem_append.mp hmem with h1 | h1
        · exact (hcu _ h1).2 o rfl
        · exact hBA (txSettled_mem_settleOne h1)
      obtain ⟨z₁, hz₁⟩ := eq_append_cons_of_not_mem hdec hBnot
      refine ⟨oA', ?_⟩
      rw [hz₁]
      exact List.mem_append_left _ (List.mem_append_right _ hoA')
  · intro api st bh st' tr' hf
    cases hw : walkAncestors st.blockParents bh with
    | none => rw [onFinalized_none hw] at hf; simp at hf
    | some fb =>
      rw [onFinalized_some hw, Option.some.injEq] at hf
      have hsnd := congrArg Prod.snd hf
      subst hsnd
      rw [doneFold_doneTxs]
      simp only [doneTxsOfTrace, List.filterMap_nil, List.nil_append]
      exact List.filter_sublist _

/-- Oracle for the ordering witness: block `b1` holds `tA` then `tB`. -/
def apiC2 : API :=
  { getBody := fun b => if b = "b1" then ["tA", "tB"] else []
    isTxValid := fun _ _ => true
    isTxSuccessful := fun _ _ => true }

/-- Witness for C2 at concrete inputs: in the block `[tA, tB]` the
settlement of `tA` precedes that of `tB`; and the done calls of the
finalization of the gap scenario form a sublist of the arrival queue. -/
theorem callback_order_inst :
    (∃ o', Call.txSettled "tA" o' ∈
      [Call.getBody "b1", Call.isTxValid "b1" "tA", Call.isTxSuccessful "b1" "tA",
       Call.txSettled "tA" (TxOutcome.valid "b1" true),
       Call.isTxValid "b1" "tB", Call.isTxSuccessful "b1" "tB"]) ∧
      List.Sublist (doneTxsOfTrace trC5f) stC5.newTxs :=
  ⟨callback_order.1 apiC2 initState "b1" "g" "tA" "tB" [] ["tB"] (by decide)
      (by decide) (by decide) (by decide)
      ⟨TxOutcome.valid "b1" true, by decide⟩
      [Call.getBody "b1", Call.isTxValid "b1" "tA", Call.isTxSuccessful "b1" "tA",
       Call.txSettled "tA" (TxOutcome.valid "b1" true),
       Call.isTxValid "b1" "tB", Call.isTxSuccessful "b1" "tB"]
      (TxOutcome.valid "b1" true) [] (by decide),
   callback_order.2 apiC5 stC5 "b2" stC5f trC5f (by decide)⟩


/-! ### Lifecycle monotonicity -/

/-- Lifecycle position of a transaction: done 3, settled 2, pending 1,
unknown 0. -/
def txRank (st : TrackerState) (tx : String) : Nat :=
  if tx ∈ st.doneTxs then 3
  else if tx ∈ keysOf st.settledTxs then 2
  else if tx ∈ st.pendingTxs then 1 else 0

theorem txRank_of_done {st : TrackerState} {tx : String} (h : tx ∈ st.doneTxs) :
    txRank st tx = 3 := by
  unfold txRank
  rw [if_pos h]

theorem le_txRank_of_settled {st : TrackerState} {tx : String}
    (h : tx ∈ keysOf st.settledTxs) : 2 ≤ txRank st tx := by
  unfold txRank
  split_ifs <;> omega

theorem le_txRank_of_pending {st : TrackerState} {tx : String}
    (h : tx ∈ st.pendingTxs) : 1 ≤ txRank st tx := by
  unfold txRank
  split_ifs <;> omega

theorem txRank_le {st st' : TrackerState} (tx : String)
    (hd : tx ∈ st.doneTxs → tx ∈ st'.doneTxs)
    (hs : tx ∈ keysOf st.settledTxs →
      (tx ∈ keysOf st'.settledTxs ∨ tx ∈ st'.doneTxs))
    (hp : tx ∈ st.pendingTxs →
      (tx ∈ st'.pendingTxs ∨ tx ∈ keysOf st'.settledTxs ∨ tx ∈ st'.doneTxs)) :
    txRank st tx ≤ txRank st' tx := by
  by_cases h1 : tx ∈ st.doneTxs
  · rw [txRank_of_done h1, txRank_of_done (hd h1)]
  · by_cases h2 : tx ∈ keysOf st.settledTxs
    · have hle : 2 ≤ txRank st' tx := by
        rcases hs h2 with h | h
        · exact le_txRank_of_settled h
        · rw [txRank_of_done h]
          omega
      have : txRank st tx = 2 := by
        unfold txRank
        rw [if_neg h1, if_pos h2]
      omega
    · by_cases h3 : tx ∈ st.pendingTxs
      · have hle : 1 ≤ txRank st' tx := by
          rcases hp h3 with h | h | h
          · exact le_txRank_of_pending h
          · have := le_txRank_of_settled h
            omega
          · rw [txRank_of_done h]
            omega
        have : txRank st tx = 1 := by
          unfold txRank
          rw [if_neg h1, if_neg h2, if_pos h3]
        omega
      · have : txRank st tx = 0 := by
          unfold txRank
          rw [if_neg h1, if_neg h2, if_neg h3]
        omega

theorem exists_of_mem_keysOf {m : List (String × String)} {a : String}
    (h : a ∈ keysOf m) : ∃ b, (a, b) ∈ m := by
  induction m with
  | nil => simp [keysOf] at h
  | cons p rest ih =>
    obtain ⟨k, v⟩ := p
    simp [keysOf] at h
    rcases h with h | h
    · exact ⟨v, by simp [h]⟩
    · obtain ⟨b, hb⟩ := ih h
      exact ⟨b, List.mem_cons_of_mem _ hb⟩

theorem settleOne_doneTxs (api : API) (bh : String) (st : TrackerState)
    (x : String) : (settleOne api bh st x).1.doneTxs = st.doneTxs := by
  by_cases hc : x ∈ keysOf st.settledTxs ∨ x ∈ st.doneTxs
  · rw [settleOne_skip hc]
  · rw [settleOne_fst hc]
    rfl

theorem settleOne_settled_stable {api : API} {bh : String} {st : TrackerState}
    {x tx b : String} (h : (tx, b) ∈ st.settledTxs) :
    (tx, b) ∈ (settleOne api bh st x).1.settledTxs := by
  by_cases hc : x ∈ keysOf st.settledTxs ∨ x ∈ st.doneTxs
  · rw [settleOne_skip hc]
    exact h
  · rw [settleOne_fst hc]
    simp only [settleUpd]
    have hne : tx ≠ x := fun he => hc (Or.inl (he ▸ mem_keysOf_of_mem h))
    exact mem_setEntry_of_ne bh h hne

theorem doneOne_settled_stable {api : API} {td : List String} {st : TrackerState}
    {x tx b : String} (h : (tx, b) ∈ st.settledTxs) :
    (tx, b) ∈ (doneOne api td st x).1.settledTxs ∨
      tx ∈ (doneOne api td st x).1.doneTxs := by
  by_cases hx : x ∈ td
  · rw [doneOne_fst hx]
    simp only [doneUpd]
    by_cases htx : tx = x
    · subst htx
      right
      split_ifs with h0
      · exact h0
      · exact List.mem_append_right _ (List.mem_cons_self _ _)
    · exact Or.inl (mem_eraseKey_of_ne h htx)
  · rw [doneOne_skip hx]
    exact Or.inl h

theorem doneOne_pendingTxs (api : API) (td : List String) (st : TrackerState)
    (x : String) : (doneOne api td st x).1.pendingTxs = st.pendingTxs := by
  by_cases hx : x ∈ td
  · rw [doneOne_fst hx]
    rfl
  · rw [doneOne_skip hx]

theorem settleOne_rank {api : API} {bh : String} {st : TrackerState}
    {x : String} (tx : String) :
    txRank st tx ≤ txRank (settleOne api bh st x).1 tx := by
  refine txRank_le tx ?_ ?_ ?_
  · intro h
    rw [settleOne_doneTxs]
    exact h
  · intro h
    left
    by_cases hc : x ∈ keysOf st.settledTxs ∨ x ∈ st.doneTxs
    · rw [settleOne_skip hc]
      exact h
    · rw [settleOne_fst hc]
      simp only [settleUpd]
      exact (mem_keysOf_setEntry _ _).mpr (Or.inl h)
  · intro h
    by_cases hc : x ∈ keysOf st.settledTxs ∨ x ∈ st.doneTxs
    · rw [settleOne_skip hc]
      exact Or.inl h
    · rw [settleOne_fst hc]
      simp only [settleUpd]
      by_cases htx : tx = x
      · subst htx
        exact Or.inr (Or.inl ((mem_keysOf_setEntry _ _).mpr (Or.inr rfl)))
      · exact Or.inl (List.mem_erase_of_ne htx |>.mpr h)

theorem doneOne_rank {api : API} {td : List String} {st : TrackerState}
    {x : String} (tx : String) :
    txRank st tx ≤ txRank (doneOne api td st x).1 tx := by
  refine txRank_le tx ?_ ?_ ?_
  · intro h
    exact doneOne_done_mono h
  · intro h
    obtain ⟨b, hb⟩ := exists_of_mem_keysOf h
    rcases doneOne_settled_stable hb with h1 | h1
    · exact Or.inl (mem_keysOf_of_mem h1)
    · exact Or.inr h1
  · intro h
    left
    rw [doneOne_pendingTxs]
    exact h

/-- C8: first settlement wins and lifecycle transitions are monotone:
processing any single event (in particular a `NewBlock` whose body
mentions an already settled-or-done transaction) keeps every recorded
settlement entry until the transaction is done, keeps done transactions
done, emits no `onTxSettled` for a transaction that is already settled or
done, and never decreases any transaction's lifecycle rank
(pending 1, settled 2, done 3). -/
theorem first_settlement_wins (api : API) (st : TrackerState) (e : Event)
    (st' : TrackerState) (tr : List Call)
    (hp : processEvent api st e = some (st', tr)) :
    (∀ tx b, (tx, b) ∈ st.settledTxs →
      (tx, b) ∈ st'.settledTxs ∨ tx ∈ st'.doneTxs) ∧
    (∀ tx, tx ∈ st.doneTxs → tx ∈ st'.doneTxs) ∧
    (∀ tx, tx ∈ keysOf st.settledTxs ∨ tx ∈ st.doneTxs →
      ∀ o, Call.txSettled tx o ∉ tr) ∧
    (∀ tx, txRank st tx ≤ txRank st' tx) := by
  cases e with
  | newBlock bh par =>
    simp only [processEvent, Option.some.injEq] at hp
    have hfst := congrArg Prod.fst hp
    have hsnd := congrArg Prod.snd hp
    rw [onNewBlock_fst] at hfst
    rw [onNewBlock_snd] at hsnd
    subst hfst
    subst hsnd
    refine ⟨?_, ?_, ?_, ?_⟩
    · intro tx b hb
      left
      refine foldl_accStep_state (Q := fun s => (tx, b) ∈ s.settledTxs)
        (fun st2 y hy => settleOne_settled_stable hy) _ _ _ hb
    · intro tx hdone
      refine foldl_accStep_state (Q := fun s => tx ∈ s.doneTxs)
        (fun st2 y hy => by
          show tx ∈ (settleOne api bh st2 y).1.doneTxs
          rw [settleOne_doneTxs]
          exact hy) _ _ _ hdone
    · intro tx hin o hmem
      rcases List.mem_cons.mp hmem with h1 | h1
      · exact Call.noConfusion h1
      · exact settleFold_no_settled_of_insd api bh tx (api.getBody bh)
          { st with blockParents := setEntry st.blockParents bh par } []
          hin (fun o' hx => by simp at hx) o h1
    · intro tx
      refine foldl_accStep_state
        (Q := fun s => txRank st tx ≤ txRank s tx)
        (fun st2 y hy => le_trans hy (settleOne_rank tx)) _ _ _ (le_refl _)
  | newTransaction v =>
    simp only [processEvent, Option.some.injEq] at hp
    have hfst := congrArg Prod.fst hp
    have hsnd := congrArg Prod.snd hp
    subst hfst
    subst hsnd
    by_cases hc : v ∈ st.pendingTxs ∨ v ∈ keysOf st.settledTxs ∨ v ∈ st.doneTxs
    · rw [onNewTx_known hc]
      exact ⟨fun tx b hb => Or.inl hb, fun tx h => h,
        fun tx _ o hmem => by simp at hmem, fun tx => le_refl _⟩
    · rw [onNewTx_new hc]
      refine ⟨fun tx b hb => Or.inl hb, fun tx h => h,
        fun tx _ o hmem => by simp at hmem, fun tx => ?_⟩
      refine txRank_le tx (fun h => h) (fun h => Or.inl h) ?_
      intro h
      exact Or.inl (List.mem_append_left _ h)
  | finalized bh =>
    simp only [processEvent] at hp
    cases hw : walkAncestors st.blockParents bh with
    | none => rw [onFinalized_none hw] at hp; simp at hp
    | some fb =>
      rw [onFinalized_some hw, Option.some.injEq] at hp
      have hfst := congrArg Prod.fst hp
      have hsnd := congrArg Prod.snd hp
      subst hfst
      subst hsnd
      refine ⟨?_, ?_, ?_, ?_⟩
      · intro tx b hb
        refine foldl_accStep_state
          (Q := fun s => (tx, b) ∈ s.settledTxs ∨ tx ∈ s.doneTxs)
          (fun st2 y hy => ?_) _ _ _ (Or.inl hb)
        rcases hy with hy | hy
        · exact doneOne_settled_stable hy
        · exact Or.inr (doneOne_done_mono hy)
      · intro tx hdone
        refine foldl_accStep_state (Q := fun s => tx ∈ s.doneTxs)
          (fun st2 y hy => doneOne_done_mono hy) _ _ _ hdone
      · intro tx _ o hmem
        rcases foldl_accStep_mem_calls
          (P := fun c => ∀ t' o', c ≠ Call.txSettled t' o')
          (fun st2 y c hc => fun t' o' he => by
            rw [he] at hc
            exact txSettled_not_mem_doneOne hc) _ _ _ _ hmem with h1 | h1
        · simp at h1
        · exact h1 tx o rfl
      · intro tx
        refine foldl_accStep_state
          (Q := fun s => txRank st tx ≤ txRank s tx)
          (fun st2 y hy => le_trans hy (doneOne_rank tx)) _ _ _ (le_refl _)

/-- The state after replaying `NewBlock(b1)` (with new parent `g2`)
against `stW`: the done transaction `t1` is skipped. -/
def stX : TrackerState := ⟨[], [], ["t1"], ["t1"], [("b1", "g2")]⟩

/-- The trace of that replayed block event: only the body fetch. -/
def trX : List Call := [Call.getBody "b1"]

/-- Witness for C8: replaying a block containing the already-done `t1`
emits no second settlement and keeps `t1` done. -/
theorem first_settlement_wins_inst :
    processEvent apiW stW (Event.newBlock "b1" "g2") = some (stX, trX) ∧
      Call.txSettled "t1" (TxOutcome.valid "b1" true) ∉ trX ∧
      txRank stW "t1" ≤ txRank stX "t1" :=
  ⟨by decide,
   (first_settlement_wins apiW stW (Event.newBlock "b1" "g2") stX trX
      (by decide)).2.2.1 "t1" (by decide) (TxOutcome.valid "b1" true),
   (first_settlement_wins apiW stW (Event.newBlock "b1" "g2") stX trX
      (by decide)).2.2.2 "t1"⟩


end TxTracker
